import Mathlib

/-!
# Verification of the cue-planner scheduling and layout core

Shallow embedding of the core logic of the `cue_planner` repository
(`src/models.py`, `src/room_tab.py`, `src/summary_tab.py`):

* the cue data model and its JSON (de)serialization (`models.py`),
* `compute_schedule` (`models.py:173`),
* the greedy lane allocator (`summary_tab.py:826` `compute_lanes`, also
  `room_tab.py:161` and `summary_tab.py:175` `_compute_lanes`),
* the global-timeline stitching loop of `SummaryTab._compute_all_stats`
  (`summary_tab.py:420`).

Modelling conventions:

* Python floats are modelled as exact rationals (`ℚ`); every arithmetic
  operation appearing in the source (`+`, `max`, comparisons) is mirrored
  exactly, no rounding is modelled.
* Python dicts holding JSON data are modelled as association lists of
  `String × JValue`; `dict.get` is first-match lookup.
* Python truthiness of a JSON value (`or` chains, `if cue.dependency_name:`)
  is modelled by `pyTruthy` below: `""`, `0` and `None`/`null` are falsy.
* Fallible deserialization (Python `ValueError` raised by an `Enum` call on
  an unrecognized value, called `ValidationError` by the design document)
  is modelled with `Except String`.  Fields that Python would store without
  type checking are given their declared types here; a value of the wrong
  JSON shape (e.g. a number stored under `"name"`) is modelled as an error,
  a corner no claim touches.  Parsing of numeric strings by `float(...)` is
  likewise out of scope and modelled as an error.
-/

/-- JSON-like values stored in the persisted document. -/
inductive JValue where
  | jstr (s : String)
  | jnum (q : ℚ)
  | jnull
  | jarr (l : List JValue)
  | jobj (l : List (String × JValue))
  deriving Repr

/-- Python truthiness on a JSON value: empty string, zero and null are falsy. -/
def pyTruthy : JValue → Bool
  | JValue.jstr s => decide (s ≠ "")
  | JValue.jnum q => decide (q ≠ 0)
  | JValue.jnull => false
  | JValue.jarr l => !l.isEmpty
  | JValue.jobj l => !l.isEmpty

/-- `dict.get(key)`: first binding of the key, if any. -/
def dictGet (d : List (String × JValue)) (key : String) : Option JValue :=
  (d.find? (fun p => p.1 == key)).map Prod.snd

/-- `dict.get(key, default)`. -/
def dictGetD (d : List (String × JValue)) (key : String) (dflt : JValue) : JValue :=
  (dictGet d key).getD dflt

/-- `a or b` on an optional JSON value, as in Python `data.get(k) or fallback`:
the left value is kept only when present and truthy. -/
def pyOr (a : Option JValue) (b : JValue) : JValue :=
  match a with
  | some v => if pyTruthy v then v else b
  | none => b

/-- `CueType` enum (`models.py:23`). -/
inductive CueType where
  | audio | projection | tv | lighting | interactive | activity
  | groupMovement | facilitatorAction
  deriving Repr, DecidableEq

/-- Display string of a `CueType` member (its Python enum value). -/
def CueType.value : CueType → String
  | audio => "Audio"
  | projection => "Projection"
  | tv => "TV"
  | lighting => "Lighting"
  | interactive => "Interactive"
  | activity => "Activity"
  | groupMovement => "Group Movement"
  | facilitatorAction => "Facilitator Action"

/-- `CueType(x)` in Python: succeeds exactly on a member value string,
raises `ValueError` otherwise. -/
def CueType.parse : JValue → Except String CueType
  | JValue.jstr "Audio" => Except.ok CueType.audio
  | JValue.jstr "Projection" => Except.ok CueType.projection
  | JValue.jstr "TV" => Except.ok CueType.tv
  | JValue.jstr "Lighting" => Except.ok CueType.lighting
  | JValue.jstr "Interactive" => Except.ok CueType.interactive
  | JValue.jstr "Activity" => Except.ok CueType.activity
  | JValue.jstr "Group Movement" => Except.ok CueType.groupMovement
  | JValue.jstr "Facilitator Action" => Except.ok CueType.facilitatorAction
  | _ => Except.error "invalid CueType"

/-- `TriggerType` enum (`models.py:40`). -/
inductive TriggerType where
  | timeline | sensor | manual
  deriving Repr, DecidableEq

/-- Display string of a `TriggerType` member. -/
def TriggerType.value : TriggerType → String
  | timeline => "Timeline (auto)"
  | sensor => "Sensor"
  | manual => "Manual (operator)"

/-- `TriggerType(x)` in Python. -/
def TriggerType.parse : JValue → Except String TriggerType
  | JValue.jstr "Timeline (auto)" => Except.ok TriggerType.timeline
  | JValue.jstr "Sensor" => Except.ok TriggerType.sensor
  | JValue.jstr "Manual (operator)" => Except.ok TriggerType.manual
  | _ => Except.error "invalid TriggerType"

/-- `PlayType` enum (`models.py:52`). -/
inductive PlayType where
  | playOnce | loop | ambient
  deriving Repr, DecidableEq

/-- Display string of a `PlayType` member. -/
def PlayType.value : PlayType → String
  | playOnce => "Play once"
  | loop => "Loop"
  | ambient => "Ambient"

/-- `PlayType(x)` in Python. -/
def PlayType.parse : JValue → Except String PlayType
  | JValue.jstr "Play once" => Except.ok PlayType.playOnce
  | JValue.jstr "Loop" => Except.ok PlayType.loop
  | JValue.jstr "Ambient" => Except.ok PlayType.ambient
  | _ => Except.error "invalid PlayType"

/-- `StartMode` enum (`models.py:59`). -/
inductive StartMode where
  | atTime | afterPrevious | afterCue
  deriving Repr, DecidableEq

/-- Display string of a `StartMode` member. -/
def StartMode.value : StartMode → String
  | atTime => "At fixed time (s)"
  | afterPrevious => "After previous cue"
  | afterCue => "After cue"

/-- `StartMode(x)` in Python. -/
def StartMode.parse : JValue → Except String StartMode
  | JValue.jstr "At fixed time (s)" => Except.ok StartMode.atTime
  | JValue.jstr "After previous cue" => Except.ok StartMode.afterPrevious
  | JValue.jstr "After cue" => Except.ok StartMode.afterCue
  | _ => Except.error "invalid StartMode"

/-- `MediaCue` dataclass (`models.py:72`). -/
structure MediaCue where
  name : String
  cue_type : CueType := CueType.audio
  trigger_type : TriggerType := TriggerType.timeline
  play_type : PlayType := PlayType.playOnce
  start_mode : StartMode := StartMode.atTime
  start_time_s : ℚ := 0
  duration_s : ℚ := 0
  dependency_name : Option String := none
  notes : String := ""
  deriving Repr, DecidableEq

instance : Inhabited MediaCue := ⟨{ name := "" }⟩

/-- `MediaCue.to_dict` (`models.py:100`).  Python `None` serializes as null. -/
def MediaCue.to_dict (c : MediaCue) : List (String × JValue) :=
  [ ("name", JValue.jstr c.name),
    ("cue_type", JValue.jstr c.cue_type.value),
    ("trigger_type", JValue.jstr c.trigger_type.value),
    ("play_type", JValue.jstr c.play_type.value),
    ("start_mode", JValue.jstr c.start_mode.value),
    ("start_time_s", JValue.jnum c.start_time_s),
    ("duration_s", JValue.jnum c.duration_s),
    ("dependency_name", match c.dependency_name with
                        | some s => JValue.jstr s
                        | none => JValue.jnull),
    ("notes", JValue.jstr c.notes) ]

/-- Extraction of a string field stored without conversion
(`data.get(key, default)` flowing into a `str` attribute). -/
def getStrField (d : List (String × JValue)) (key : String) (dflt : String) :
    Except String String :=
  match dictGet d key with
  | some (JValue.jstr s) => Except.ok s
  | some _ => Except.error "non-string field"
  | none => Except.ok dflt

/-- `float(data.get(key, 0.0))`: identity on numbers; numeric-string parsing
is out of modelled scope, and `float(None)` raises. -/
def getFloatField (d : List (String × JValue)) (key : String) :
    Except String ℚ :=
  match dictGet d key with
  | some (JValue.jnum q) => Except.ok q
  | some _ => Except.error "non-numeric field"
  | none => Except.ok 0

/-- `data.get("dependency_name") or None` flowing into `str | None`
(`models.py:133`): a falsy value (absent, null, `""`) becomes `None`. -/
def getDepField (d : List (String × JValue)) : Except String (Option String) :=
  match dictGet d "dependency_name" with
  | some v =>
      if pyTruthy v then
        match v with
        | JValue.jstr s => Except.ok (some s)
        | _ => Except.error "non-string dependency_name"
      else Except.ok none
  | none => Except.ok none

/-- The `type_value` of `MediaCue.from_dict` (`models.py:123`):
`data.get("cue_type") or data.get("media_type") or CueType.AUDIO.value`. -/
def resolveTypeValue (d : List (String × JValue)) : JValue :=
  pyOr (dictGet d "cue_type")
    (pyOr (dictGet d "media_type") (JValue.jstr CueType.audio.value))

/-- `MediaCue.from_dict` (`models.py:114`), with fields converted in the
source order; the first failing conversion aborts with an error. -/
def MediaCue.from_dict (d : List (String × JValue)) : Except String MediaCue := do
  let name ← getStrField d "name" ""
  let ct ← CueType.parse (resolveTypeValue d)
  let tt ← TriggerType.parse (dictGetD d "trigger_type" (JValue.jstr TriggerType.timeline.value))
  let pt ← PlayType.parse (dictGetD d "play_type" (JValue.jstr PlayType.playOnce.value))
  let sm ← StartMode.parse (dictGetD d "start_mode" (JValue.jstr StartMode.atTime.value))
  let sts ← getFloatField d "start_time_s"
  let dur ← getFloatField d "duration_s"
  let dep ← getDepField d
  let notes ← getStrField d "notes" ""
  Except.ok { name := name, cue_type := ct, trigger_type := tt, play_type := pt,
              start_mode := sm, start_time_s := sts, duration_s := dur,
              dependency_name := dep, notes := notes }

/-- `RoomPlan` (`models.py:138`). -/
structure RoomPlan where
  name : String
  cues : List MediaCue := []
  deriving Repr, DecidableEq

/-- `RoomPlan.to_dict` (`models.py:144`). -/
def RoomPlan.to_dict (r : RoomPlan) : List (String × JValue) :=
  [ ("name", JValue.jstr r.name),
    ("cues", JValue.jarr (r.cues.map (fun c => JValue.jobj c.to_dict))) ]

/-- Deserialize one element of the `cues` array: Python calls
`MediaCue.from_dict(c)`, so the element must be a dict. -/
def cueOfJValue (v : JValue) : Except String MediaCue :=
  match v with
  | JValue.jobj fields => MediaCue.from_dict fields
  | _ => Except.error "cue entry is not an object"

/-- `RoomPlan.from_dict` (`models.py:150`): a failing cue deserialization
propagates (the list comprehension lets the exception escape). -/
def RoomPlan.from_dict (d : List (String × JValue)) : Except String RoomPlan := do
  let cuesVal := dictGetD d "cues" (JValue.jarr [])
  let cueList ←
    match cuesVal with
    | JValue.jarr l => l.mapM cueOfJValue
    | _ => Except.error "cues is not a list"
  let name ← getStrField d "name" "Room"
  Except.ok { name := name, cues := cueList }

/-- `ShowPlan` (`models.py:156`). -/
structure ShowPlan where
  rooms : List RoomPlan := []
  deriving Repr, DecidableEq

/-- `ShowPlan.to_dict` (`models.py:161`). -/
def ShowPlan.to_dict (p : ShowPlan) : List (String × JValue) :=
  [ ("rooms", JValue.jarr (p.rooms.map (fun r => JValue.jobj r.to_dict))) ]

/-- Deserialize one element of the `rooms` array. -/
def roomOfJValue (v : JValue) : Except String RoomPlan :=
  match v with
  | JValue.jobj fields => RoomPlan.from_dict fields
  | _ => Except.error "room entry is not an object"

/-- `ShowPlan.from_dict` (`models.py:164`): errors propagate. -/
def ShowPlan.from_dict (d : List (String × JValue)) : Except String ShowPlan := do
  let roomsVal := dictGetD d "rooms" (JValue.jarr [])
  let roomList ←
    match roomsVal with
    | JValue.jarr l => l.mapM roomOfJValue
    | _ => Except.error "rooms is not a list"
  Except.ok { rooms := roomList }

/-!
## Scheduling (`models.py:173` `compute_schedule`)
-/

/-- Backward scan of `models.py:211`: `for dep_index in range(i-1, -1, -1)`,
returning the first (i.e. nearest, highest-index) earlier cue whose `name`
equals `dep`.  `findDepBelow cues dep i` scans positions `i-1, …, 0`. -/
def findDepBelow (cues : List MediaCue) (dep : String) : Nat → Option Nat
  | 0 => none
  | k + 1 =>
      if (cues.getD k default).name = dep then some k
      else findDepBelow cues dep k

/-- The start time of the cue at `index`, computed from the already-resolved
starts of earlier cues (`starts`, read only at positions `< index`).
This is the body of the loop of `compute_schedule`, minus the cursor
update (the cursor is never read; see `compute_schedule_cursor_free`). -/
def startOf (cues : List MediaCue) (starts : List ℚ) (index : Nat)
    (cue : MediaCue) : ℚ :=
  match cue.start_mode with
  | StartMode.atTime => max cue.start_time_s 0
  | StartMode.afterPrevious =>
      if index = 0 then 0
      else starts.getD (index - 1) 0 +
           max (cues.getD (index - 1) default).duration_s 0
  | StartMode.afterCue =>
      match cue.dependency_name with
      | some dep =>
          if dep ≠ "" then
            match findDepBelow cues dep index with
            | some j =>
                starts.getD j 0 + max (cues.getD j default).duration_s 0
            | none => 0
          else 0
      | none => 0

/-- The cursor update of the loop of `compute_schedule`: `AT_TIME` and
`AFTER_CUE` (and the fallback) take `max(current_time, start)`,
`AFTER_PREVIOUS` overwrites with `start`. -/
def cursorOf (cue : MediaCue) (cursor start : ℚ) : ℚ :=
  match cue.start_mode with
  | StartMode.afterPrevious => start
  | _ => max cursor start

/-- The `for index, cue in enumerate(cues)` loop of `compute_schedule`,
iterating over the remaining cues while carrying the running index, the
starts accumulated for positions `< index`, and the `current_time` cursor.
The full list `cues` stays available for the backward lookups. -/
def schedGo (cues : List MediaCue) : List MediaCue → Nat → List ℚ → ℚ → List ℚ
  | [], _, starts, _ => starts
  | cue :: rest, index, starts, cursor =>
      let s := startOf cues starts index cue
      schedGo cues rest (index + 1) (starts ++ [s]) (cursorOf cue cursor s)

/-- `compute_schedule` (`models.py:173`). -/
def compute_schedule (cues : List MediaCue) : List ℚ :=
  schedGo cues cues 0 [] 0

/-- The same recursion with the cursor removed (refinement target of the
cursor-elimination claim). -/
def schedGoNC (cues : List MediaCue) : List MediaCue → Nat → List ℚ → List ℚ
  | [], _, starts => starts
  | cue :: rest, index, starts =>
      schedGoNC cues rest (index + 1) (starts ++ [startOf cues starts index cue])

/-- Cursor-free `compute_schedule`. -/
def computeScheduleNC (cues : List MediaCue) : List ℚ :=
  schedGoNC cues cues 0 []

/-!
## Greedy lane allocation
(`summary_tab.py:826` `compute_lanes`; the same loop appears as
`TimelineView._compute_lanes` in `room_tab.py:161` and
`GlobalTimelineView._compute_lanes` in `summary_tab.py:175`.)
-/

/-- Scan `lane_end_times` in order for the first lane with
`start >= lane_end` (`summary_tab.py:846`). -/
def findFreeLane (start : ℚ) : List ℚ → Option Nat
  | [] => none
  | e :: rest =>
      if e ≤ start then some 0
      else (findFreeLane start rest).map (· + 1)

/-- Start of the interval at index `i` of `ivs`. -/
def ivStart (ivs : List (ℚ × ℚ)) (i : Nat) : ℚ := (ivs.getD i (0, 0)).1

/-- End of the interval at index `i` of `ivs`. -/
def ivEnd (ivs : List (ℚ × ℚ)) (i : Nat) : ℚ := (ivs.getD i (0, 0)).2

/-- The body of the `for i in indices` loop of `compute_lanes`: place each
index in the first free lane, else open a new lane.  State is
`(lane_end_times, item_lane)`. -/
def placeAll (ivs : List (ℚ × ℚ)) : List Nat → List ℚ × List Nat → List ℚ × List Nat
  | [], st => st
  | i :: rest, (lanes, assign) =>
      match findFreeLane (ivStart ivs i) lanes with
      | some l =>
          placeAll ivs rest (lanes.set l (ivEnd ivs i), assign.set i l)
      | none =>
          placeAll ivs rest (lanes ++ [ivEnd ivs i], assign.set i lanes.length)

/-- The order in which `indices.sort(key=lambda i: intervals[i][0])`
processes indices: Python's sort is stable, so sorting the distinct indices
`range(n)` by start is exactly sorting them by the lexicographic key
`(start, index)` — a linear order, for which the sorted permutation is
unique, so any correct sort models it. -/
def idxLe (ivs : List (ℚ × ℚ)) (i j : Nat) : Prop :=
  ivStart ivs i < ivStart ivs j ∨ (ivStart ivs i = ivStart ivs j ∧ i ≤ j)

instance (ivs : List (ℚ × ℚ)) : DecidableRel (idxLe ivs) := by
  intro i j
  unfold idxLe
  infer_instance

instance (ivs : List (ℚ × ℚ)) : IsTotal Nat (idxLe ivs) := by
  constructor
  intro i j
  unfold idxLe
  rcases lt_trichotomy (ivStart ivs i) (ivStart ivs j) with h | h | h
  · exact Or.inl (Or.inl h)
  · rcases Nat.le_total i j with hij | hij
    · exact Or.inl (Or.inr ⟨h, hij⟩)
    · exact Or.inr (Or.inr ⟨h.symm, hij⟩)
  · exact Or.inr (Or.inl h)

instance (ivs : List (ℚ × ℚ)) : IsTrans Nat (idxLe ivs) := by
  constructor
  intro a b c hab hbc
  unfold idxLe at *
  rcases hab with h1 | ⟨h1, h1i⟩ <;> rcases hbc with h2 | ⟨h2, h2i⟩
  · exact Or.inl (h1.trans h2)
  · exact Or.inl (h2 ▸ h1)
  · exact Or.inl (h1 ▸ h2)
  · exact Or.inr ⟨h1.trans h2, h1i.trans h2i⟩

/-- `indices.sort(key=lambda i: intervals[i][0])` (stable). -/
def sortedIndices (ivs : List (ℚ × ℚ)) : List Nat :=
  List.insertionSort (idxLe ivs) (List.range ivs.length)

/-- `compute_lanes` (`summary_tab.py:826`): lane index per interval,
in input order. -/
def compute_lanes (ivs : List (ℚ × ℚ)) : List Nat :=
  if ivs.length = 0 then []
  else (placeAll ivs (sortedIndices ivs)
          ([], List.replicate ivs.length 0)).2

/-- Number of lanes used: `max(item_lane) + 1` on a nonempty assignment,
`0` for no items. -/
def numLanes (ivs : List (ℚ × ℚ)) : Nat :=
  ((compute_lanes ivs).map (· + 1)).foldr max 0

/-- Two intervals overlap: `start_a < end_b AND start_b < end_a`. -/
def ivOverlap (a b : ℚ × ℚ) : Prop := a.1 < b.2 ∧ b.1 < a.2

/-- Number of intervals of `ivs` in flight at instant `t`
(half-open containment `start ≤ t < end`). -/
def concAt (ivs : List (ℚ × ℚ)) (t : ℚ) : Nat :=
  ((Finset.range ivs.length).filter
    (fun j => ivStart ivs j ≤ t ∧ t < ivEnd ivs j)).card

/-!
## Global timeline stitching (`summary_tab.py:420` `_compute_all_stats`)
-/

/-- One entry of the global timeline (`GlobalTimelineItem`). -/
structure GlobalTimelineItem where
  room_name : String
  cue : MediaCue
  start_time : ℚ
  duration : ℚ
  deriving Repr, DecidableEq

/-- `room_end` of a room (`summary_tab.py:459`, `470`): running max of
`local_start + max(duration, 0)` over the room's cues, seeded at `0`. -/
def roomEnd (cues : List MediaCue) : ℚ :=
  ((cues.zip (compute_schedule cues)).map
    (fun p => p.2 + max p.1.duration_s 0)).foldl max 0

/-- The global items a room emits, given the room's accumulated
`global_offset` (`summary_tab.py:473`). -/
def roomItems (name : String) (cues : List MediaCue) (offset : ℚ) :
    List GlobalTimelineItem :=
  (cues.zip (compute_schedule cues)).map
    (fun p => { room_name := name, cue := p.1,
                start_time := offset + p.2,
                duration := max p.1.duration_s 0 })

/-- The room loop of `_compute_all_stats`, restricted to the global-timeline
outputs: rooms with no cues are skipped (`summary_tab.py:444`, leaving
`global_offset` unchanged); otherwise the room's items are emitted at the
current offset and the offset advances by `room_end`. -/
def buildGo : List (String × List MediaCue) → ℚ → List GlobalTimelineItem × ℚ
  | [], offset => ([], offset)
  | (name, cues) :: rest, offset =>
      if cues.isEmpty then buildGo rest offset
      else
        let res := buildGo rest (offset + roomEnd cues)
        (roomItems name cues offset ++ res.1, res.2)

/-- `build_global_timeline`: the global items and the final `global_offset`
(the total show duration) of `_compute_all_stats`. -/
def buildGlobalTimeline (rooms : List (String × List MediaCue)) :
    List GlobalTimelineItem × ℚ :=
  buildGo rooms 0

/-!
## Spec-side definitions

These definitions follow the wording of the design document (not the
source); they exist to state refinement/comparison claims against the
source-derived definitions above.
-/

/-- Presence-based cue-type selection, following the claim wording
"reading the key `cue_type` if that key is present, otherwise reading the
legacy key `media_type` if present, otherwise defaulting to Audio". -/
def specTypeValuePresence (d : List (String × JValue)) : JValue :=
  match dictGet d "cue_type" with
  | some v => v
  | none =>
      match dictGet d "media_type" with
      | some v => v
      | none => JValue.jstr "Audio"

/-- Truthiness-based cue-type selection: the first of `cue_type`,
`media_type` that is present with a truthy value, else the Audio default. -/
def specTypeValueTruthy (d : List (String × JValue)) : JValue :=
  match dictGet d "cue_type" with
  | some v =>
      if pyTruthy v then v
      else
        match dictGet d "media_type" with
        | some w => if pyTruthy w then w else JValue.jstr "Audio"
        | none => JValue.jstr "Audio"
  | none =>
      match dictGet d "media_type" with
      | some w => if pyTruthy w then w else JValue.jstr "Audio"
      | none => JValue.jstr "Audio"

/-- The claim "deserialization determines the cue type by reading the key
`cue_type` if present, otherwise `media_type` if present, otherwise Audio",
as stated: every successfully deserialized cue's type parses from the
presence-based selection. -/
def typeKeyPresenceResolution : Prop :=
  ∀ d c, MediaCue.from_dict d = Except.ok c →
    CueType.parse (specTypeValuePresence d) = Except.ok c.cue_type

/-- Sum of `room_end` over the rooms strictly before index `N`
(the `global_offset` at which room `N` is emitted). -/
def prefixEnd (rooms : List (String × List MediaCue)) (N : Nat) : ℚ :=
  ((rooms.take N).map (fun r => roomEnd r.2)).sum

/-- The global-timeline entries emitted for the room at index `N`. -/
def roomItemsAt (rooms : List (String × List MediaCue)) (N : Nat) :
    List GlobalTimelineItem :=
  roomItems (rooms.getD N ("", [])).1 (rooms.getD N ("", [])).2
    (prefixEnd rooms N)

/-- The global-timeline claim as stated: each entry of room `N` starts at or
after the cumulative end of the earlier rooms, and strictly before that sum
plus room `N`'s own `room_end` whenever that `room_end` is nonzero. -/
def globalEntriesStrictBounds : Prop :=
  ∀ rooms N, N < rooms.length →
    ∀ it, it ∈ roomItemsAt rooms N →
      prefixEnd rooms N ≤ it.start_time ∧
      (roomEnd (rooms.getD N ("", [])).2 ≠ 0 →
        it.start_time < prefixEnd rooms N + roomEnd (rooms.getD N ("", [])).2)

/-- The lane-count claim as stated: for every interval list, the number of
lanes produced equals the maximum number of intervals simultaneously in
flight at some instant. -/
def lanesAreMaxConcurrency : Prop :=
  ∀ ivs : List (ℚ × ℚ),
    (∀ t, concAt ivs t ≤ numLanes ivs) ∧
    (numLanes ivs = 0 ∨ ∃ t, numLanes ivs ≤ concAt ivs t)

/-!
## Concrete inputs used by witnesses and counterexamples
-/

/-- Witness cue list: a fixed-time cue with a negative offset, an
after-previous cue, and an after-cue reference to a duplicated name. -/
def wCuesA : List MediaCue :=
  [ { name := "a", start_mode := StartMode.atTime, start_time_s := 5,
      duration_s := 3 },
    { name := "a", start_mode := StartMode.atTime, start_time_s := 1,
      duration_s := 7 },
    { name := "b", start_mode := StartMode.afterCue,
      dependency_name := some "a" },
    { name := "c", start_mode := StartMode.afterPrevious, duration_s := 2 },
    { name := "d", start_mode := StartMode.atTime, start_time_s := -4 } ]

/-- Witness room list: two rooms with one cue each. -/
def wRooms : List (String × List MediaCue) :=
  [ ("room1", [ { name := "x", start_mode := StartMode.atTime,
                  start_time_s := 0, duration_s := 20 } ]),
    ("room2", [ { name := "y", start_mode := StartMode.atTime,
                  start_time_s := 0, duration_s := 5 } ]) ]

/-- Witness intervals as `(start, duration)` pairs. -/
def wItems : List (ℚ × ℚ) :=
  [ (0, 10), (0, 5), (12, 1), (10, 2) ]

/-- Witness intervals with positive lengths. -/
def wIvsPos : List (ℚ × ℚ) :=
  [ (0, 10), (0, 5), (12, 13), (10, 12) ]

/-- Interval list refuting the lane-count claim: a zero-length interval
at the start of a longer one gets its own lane although no instant has two
intervals in flight and the two intervals do not overlap. -/
def cxIvs : List (ℚ × ℚ) := [ (0, 10), (0, 0) ]

/-- Room list refuting the strict upper bound of the global-timeline claim:
one room whose single cue starts at 10 with duration 0, so `room_end = 10`
and the entry starts exactly at `prefixEnd + room_end`. -/
def cxRooms : List (String × List MediaCue) :=
  [ ("r", [ { name := "z", start_mode := StartMode.atTime,
              start_time_s := 10, duration_s := 0 } ]) ]

/-- Cue refuting the unrestricted round-trip claim: an empty-string
`dependency_name` is collapsed to `None` by `from_dict`. -/
def cxCueEmptyDep : MediaCue := { name := "a", dependency_name := some "" }

/-- Witness cue for the amended round-trip claim. -/
def wCueFull : MediaCue :=
  { name := "Ocean intro", cue_type := CueType.projection,
    trigger_type := TriggerType.sensor, play_type := PlayType.loop,
    start_mode := StartMode.afterCue, start_time_s := 3/2,
    duration_s := 21/4, dependency_name := some "a", notes := "check levels" }

/-- Witness room plan for the amended round-trip claim. -/
def wRoomPlan : RoomPlan :=
  { name := "Reception", cues := [wCueFull, { name := "b" }] }

/-- Dict refuting the strict reading of the enumeration-failure claim: its
`cue_type` value `""` is not a recognized display string, yet
deserialization succeeds (truthiness makes it fall back to the default). -/
def cxDictEmptyCueType : List (String × JValue) := [("cue_type", JValue.jstr "")]

/-- Dict refuting the presence-based key-resolution claim: `cue_type` is
present but falsy, so the code reads `media_type` instead. -/
def cxDictFalsyCueType : List (String × JValue) :=
  [("cue_type", JValue.jstr ""), ("media_type", JValue.jstr "TV")]

/-- Witness dict with an unrecognized `start_mode`. -/
def wDictBadStartMode : List (String × JValue) :=
  [("name", JValue.jstr "x"), ("start_mode", JValue.jstr "bogus")]

/-- Witness show-plan dict containing `wDictBadStartMode` as a cue. -/
def wShowDictBad : List (String × JValue) :=
  [("rooms", JValue.jarr
    [JValue.jobj [("name", JValue.jstr "Reception"),
                  ("cues", JValue.jarr [JValue.jobj wDictBadStartMode])]])]

/-- The global item room 2 of `wRooms` emits (offset 20, local start 0). -/
def wItemRoom2 : GlobalTimelineItem :=
  { room_name := "room2",
    cue := { name := "y", start_mode := StartMode.atTime,
             start_time_s := 0, duration_s := 5 },
    start_time := 20, duration := 5 }

/-- The single global item of `cxRooms`: it starts exactly at
`prefixEnd + room_end`, refuting the strict upper bound. -/
def cxItemRoom : GlobalTimelineItem :=
  { room_name := "r",
    cue := { name := "z", start_mode := StartMode.atTime,
             start_time_s := 10, duration_s := 0 },
    start_time := 10, duration := 0 }

/-- Witness dict carrying only the legacy `media_type` key. -/
def wDictMediaTypeOnly : List (String × JValue) := [("media_type", JValue.jstr "TV")]

/-- The cue `wDictMediaTypeOnly` deserializes to. -/
def wCueTV : MediaCue := { name := "", cue_type := CueType.tv }

/-- The cue `cxDictFalsyCueType` deserializes to. -/
def cxCueTV : MediaCue := { name := "", cue_type := CueType.tv }

/-- The cue `cxDictEmptyCueType` deserializes to (all defaults). -/
def cxCueDefault : MediaCue := { name := "" }

/-- The `(start, end)` intervals the callers of the lane allocator build
from `(start, duration)` pairs: `end = start + max(duration, 0)`
(`room_tab.py:183`, `summary_tab.py:190`). -/
def ivsOfItems (items : List (ℚ × ℚ)) : List (ℚ × ℚ) :=
  items.map (fun p => (p.1, p.1 + max p.2 0))

/-- Invariant of the lane-placement loop, over the indices processed so far
(in processing order), the current `lane_end_times` and the current
assignment array:

1. the assignment array keeps its length;
2. every processed index is assigned an existing lane;
3. two processed indices in the same lane are chronological: the earlier
   one ends no later than the later one starts;
4. every lane's end time is the end of some processed index assigned to it;
5. when every interval has positive length, some instant has at least as
   many intervals in flight as there are lanes. -/
def LaneInv (ivs : List (ℚ × ℚ)) (processed : List Nat)
    (lanes : List ℚ) (assign : List Nat) : Prop :=
  assign.length = ivs.length ∧
  (∀ i ∈ processed, assign.getD i 0 < lanes.length) ∧
  List.Pairwise (fun i j => assign.getD i 0 = assign.getD j 0 →
    ivEnd ivs i ≤ ivStart ivs j) processed ∧
  (∀ l, l < lanes.length → ∃ i ∈ processed,
    assign.getD i 0 = l ∧ ivEnd ivs i = lanes.getD l 0) ∧
  (∀ i ∈ processed,
    ivEnd ivs i ≤ lanes.getD (assign.getD i 0) 0 ∨
      ∃ i2 ∈ processed, ivEnd ivs i ≤ ivStart ivs i2) ∧
  ((∀ i, i < ivs.length → ivStart ivs i < ivEnd ivs i) →
    lanes.length = 0 ∨ ∃ t, lanes.length ≤ concAt ivs t)

/-!
## Theorems

### Schedule-resolver machinery
-/

theorem schedGo_cursor_irrelevant (cues : List MediaCue) :
    ∀ remaining index starts cursor,
      schedGo cues remaining index starts cursor =
        schedGoNC cues remaining index starts := by
  intro remaining
  induction remaining with
  | nil => intro index starts cursor; rfl
  | cons cue rest ih =>
    intro index starts cursor
    exact ih (index + 1) (starts ++ [startOf cues starts index cue]) _

theorem schedGoNC_prefix (cues : List MediaCue) :
    ∀ remaining index starts,
      ∃ rest, schedGoNC cues remaining index starts = starts ++ rest := by
  intro remaining
  induction remaining with
  | nil => intro index starts; exact ⟨[], (List.append_nil starts).symm⟩
  | cons cue rem ih =>
    intro index starts
    obtain ⟨r, hr⟩ := ih (index + 1) (starts ++ [startOf cues starts index cue])
    exact ⟨[startOf cues starts index cue] ++ r, by
      rw [schedGoNC, hr, List.append_assoc]⟩

theorem schedGoNC_length (cues : List MediaCue) :
    ∀ remaining index starts,
      (schedGoNC cues remaining index starts).length =
        starts.length + remaining.length := by
  intro remaining
  induction remaining with
  | nil => intro index starts; simp [schedGoNC]
  | cons cue rem ih =>
    intro index starts
    rw [schedGoNC, ih]
    simp
    omega

theorem schedGoNC_getD_lt (cues : List MediaCue) (remaining : List MediaCue)
    (index : Nat) (starts : List ℚ) (j : Nat) (hj : j < starts.length) :
    (schedGoNC cues remaining index starts).getD j 0 = starts.getD j 0 := by
  obtain ⟨rest, hrest⟩ := schedGoNC_prefix cues remaining index starts
  rw [hrest, List.getD_append _ _ _ _ hj]

theorem findDepBelow_lt (cues : List MediaCue) (dep : String) :
    ∀ i j, findDepBelow cues dep i = some j → j < i := by
  intro i
  induction i with
  | zero => intro j h; simp [findDepBelow] at h
  | succ k ih =>
    intro j h
    rw [findDepBelow] at h
    split at h
    · injection h with h2; omega
    · have := ih j h; omega

theorem startOf_congr (cues : List MediaCue) (a b : List ℚ) (index : Nat)
    (cue : MediaCue) (hab : ∀ j, j < index → a.getD j 0 = b.getD j 0) :
    startOf cues a index cue = startOf cues b index cue := by
  unfold startOf
  cases cue.start_mode with
  | atTime => rfl
  | afterPrevious =>
    by_cases h0 : index = 0
    · simp [h0]
    · simp only [h0, if_false]
      rw [hab (index - 1) (by omega)]
  | afterCue =>
    cases hdep : cue.dependency_name with
    | none => rfl
    | some dep =>
      by_cases hne : dep = ""
      · simp [hne]
      · simp only [hne, ne_eq, not_false_iff, if_true]
        cases hfind : findDepBelow cues dep index with
        | none => rfl
        | some j =>
          have hj := findDepBelow_lt cues dep index j hfind
          simp only [hab j hj]

theorem drop_getD (cues : List MediaCue) (index : Nat) (cue : MediaCue)
    (rest : List MediaCue) (h : cues.drop index = cue :: rest) :
    cues.getD index default = cue := by
  have h0 : (cues.drop index).get? 0 = some cue := by rw [h]; rfl
  rw [List.get?_drop] at h0
  simp only [Nat.add_zero] at h0
  simp [List.getD, ← List.get?_eq_getElem?, h0]

theorem drop_tail (cues : List MediaCue) (index : Nat) (cue : MediaCue)
    (rest : List MediaCue) (h : cues.drop index = cue :: rest) :
    cues.drop (index + 1) = rest := by
  rw [← List.tail_drop, h]
  rfl

theorem drop_lt_length (cues : List MediaCue) (index : Nat) (cue : MediaCue)
    (rest : List MediaCue) (h : cues.drop index = cue :: rest) :
    index < cues.length := by
  by_contra hge
  rw [List.drop_eq_nil_of_le (by omega)] at h
  exact List.noConfusion h

theorem schedGoNC_char (cues : List MediaCue) :
    ∀ remaining index starts, remaining = cues.drop index →
      starts.length = index →
      ∀ i, index ≤ i → i < cues.length →
        (schedGoNC cues remaining index starts).getD i 0 =
          startOf cues (schedGoNC cues remaining index starts) i
            (cues.getD i default) := by
  intro remaining
  induction remaining with
  | nil =>
    intro index starts hdrop hs i hlo hhi
    have : cues.length ≤ index := by
      by_contra hlt
      have := congrArg List.length hdrop
      simp [List.length_drop] at this
      omega
    omega
  | cons cue rem ih =>
    intro index starts hdrop hs i hlo hhi
    have hcue : cues.getD index default = cue := drop_getD cues index cue rem hdrop.symm
    have hrem : rem = cues.drop (index + 1) :=
      (drop_tail cues index cue rem hdrop.symm).symm
    rw [schedGoNC]
    rcases Nat.lt_or_ge index i with hlt | hge
    · exact ih (index + 1) _ hrem (by simp [hs]) i (by omega) hhi
    · have hie : i = index := by omega
      subst hie
      have hlen2 : i < (starts ++ [startOf cues starts i cue]).length := by
        simp [hs]
      rw [schedGoNC_getD_lt cues rem (i + 1) _ i hlen2]
      have hgetd : (starts ++ [startOf cues starts i cue]).getD i 0 =
          startOf cues starts i cue := by
        rw [List.getD_append_right _ _ _ _ (by omega)]
        simp [hs]
      rw [hgetd, hcue]
      apply startOf_congr
      intro j hj
      rw [schedGoNC_getD_lt cues rem (i + 1) _ j (by simp [hs]; omega)]
      rw [List.getD_append _ _ _ _ (by omega)]

theorem compute_schedule_eq_NC (cues : List MediaCue) :
    compute_schedule cues = computeScheduleNC cues :=
  schedGo_cursor_irrelevant cues cues 0 [] 0

theorem compute_schedule_length (cues : List MediaCue) :
    (compute_schedule cues).length = cues.length := by
  rw [compute_schedule_eq_NC]
  have := schedGoNC_length cues cues 0 []
  simpa [computeScheduleNC] using this

theorem compute_schedule_char (cues : List MediaCue) (i : Nat)
    (hi : i < cues.length) :
    (compute_schedule cues).getD i 0 =
      startOf cues (compute_schedule cues) i (cues.getD i default) := by
  rw [compute_schedule_eq_NC]
  exact schedGoNC_char cues cues 0 [] (by rfl) rfl i (by omega) hi

theorem findDepBelow_none_iff (cues : List MediaCue) (dep : String) (i : Nat) :
    findDepBelow cues dep i = none ↔
      ∀ j, j < i → (cues.getD j default).name ≠ dep := by
  induction i with
  | zero => simp [findDepBelow]
  | succ k ih =>
    rw [findDepBelow]
    constructor
    · intro h
      split at h
      · exact absurd h (by simp)
      · intro j hj
        rcases Nat.lt_or_ge j k with hjk | hjk
        · exact ih.mp h j hjk
        · have : j = k := by omega
          subst this
          assumption
    · intro h
      split
      · next heq => exact absurd heq (h k (by omega))
      · exact ih.mpr (fun j hj => h j (by omega))

theorem findDepBelow_greatest (cues : List MediaCue) (dep : String) :
    ∀ i j, j < i → (cues.getD j default).name = dep →
      (∀ k, k < i → j < k → (cues.getD k default).name ≠ dep) →
      findDepBelow cues dep i = some j := by
  intro i
  induction i with
  | zero => intro j hj; omega
  | succ m ih =>
    intro j hj hname hmax
    rw [findDepBelow]
    rcases Nat.lt_or_ge j m with hjm | hjm
    · have hm : (cues.getD m default).name ≠ dep := hmax m (by omega) (by omega)
      rw [if_neg hm]
      exact ih j hjm hname (fun k hk1 hk2 => hmax k (by omega) hk2)
    · have : j = m := by omega
      subst this
      rw [if_pos hname]

theorem findDepBelow_name (cues : List MediaCue) (dep : String) :
    ∀ i j, findDepBelow cues dep i = some j →
      (cues.getD j default).name = dep := by
  intro i
  induction i with
  | zero => intro j h; simp [findDepBelow] at h
  | succ k ih =>
    intro j h
    rw [findDepBelow] at h
    split at h
    · next heq => injection h with h2; subst h2; exact heq
    · exact ih j h

theorem getD_append_lt (cues tail : List MediaCue) (j : Nat)
    (hj : j < cues.length) :
    (cues ++ tail).getD j default = cues.getD j default :=
  List.getD_append _ _ _ _ hj

theorem findDepBelow_append (cues tail : List MediaCue) (dep : String) :
    ∀ k, k ≤ cues.length →
      findDepBelow (cues ++ tail) dep k = findDepBelow cues dep k := by
  intro k
  induction k with
  | zero => intro _; rfl
  | succ m ih =>
    intro hm
    rw [findDepBelow, findDepBelow, getD_append_lt cues tail m (by omega),
      ih (by omega)]

theorem startOf_append (cues tail : List MediaCue) (starts : List ℚ)
    (index : Nat) (cue : MediaCue) (hidx : index ≤ cues.length) :
    startOf (cues ++ tail) starts index cue = startOf cues starts index cue := by
  unfold startOf
  cases cue.start_mode with
  | atTime => rfl
  | afterPrevious =>
    by_cases h0 : index = 0
    · simp [h0]
    · simp only [h0, if_false]
      rw [getD_append_lt cues tail (index - 1) (by omega)]
  | afterCue =>
    cases hdep : cue.dependency_name with
    | none => rfl
    | some dep =>
      by_cases hne : dep = ""
      · simp [hne]
      · simp only [hne, ne_eq, not_false_iff, if_true]
        rw [findDepBelow_append cues tail dep index hidx]
        cases hfind : findDepBelow cues dep index with
        | none => rfl
        | some j =>
          have hj := findDepBelow_lt cues dep index j hfind
          simp only [getD_append_lt cues tail j (by omega)]

theorem schedGoNC_append (cues tail : List MediaCue) :
    ∀ remaining index starts, remaining = cues.drop index →
      starts.length = index → index ≤ cues.length →
      (schedGoNC (cues ++ tail) (remaining ++ tail) index starts).take
          cues.length = schedGoNC cues remaining index starts := by
  intro remaining
  induction remaining with
  | nil =>
    intro index starts hdrop hs hle
    have hge : cues.length ≤ index := by
      by_contra hlt
      have := congrArg List.length hdrop
      simp [List.length_drop] at this
      omega
    have hix : index = cues.length := by omega
    obtain ⟨rest, hrest⟩ :=
      schedGoNC_prefix (cues ++ tail) ([] ++ tail) index starts
    rw [hrest]
    have : cues.length = starts.length := by omega
    rw [this, List.take_left]
    rfl
  | cons cue rem ih =>
    intro index starts hdrop hs hle
    have hlt : index < cues.length := drop_lt_length cues index cue rem hdrop.symm
    have hrem : rem = cues.drop (index + 1) :=
      (drop_tail cues index cue rem hdrop.symm).symm
    show (schedGoNC (cues ++ tail) (cue :: (rem ++ tail)) index starts).take
        cues.length = _
    rw [schedGoNC, schedGoNC,
      startOf_append cues tail starts index cue (by omega)]
    exact ih (index + 1) _ hrem (by simp [hs]) (by omega)

theorem getD_nonneg (starts : List ℚ) (j : Nat)
    (h : ∀ x ∈ starts, 0 ≤ x) : 0 ≤ starts.getD j 0 := by
  rcases Nat.lt_or_ge j starts.length with hj | hj
  · rw [List.getD_eq_get _ _ hj]
    exact h _ (List.get_mem _ _ _)
  · rw [List.getD_eq_default _ _ hj]

theorem startOf_nonneg (cues : List MediaCue) (starts : List ℚ) (index : Nat)
    (cue : MediaCue) (h : ∀ x ∈ starts, 0 ≤ x) :
    0 ≤ startOf cues starts index cue := by
  unfold startOf
  cases cue.start_mode with
  | atTime => exact le_max_right _ _
  | afterPrevious =>
    by_cases h0 : index = 0
    · simp [h0]
    · simp only [h0, if_false]
      have := getD_nonneg starts (index - 1) h
      have := le_max_right (cues.getD (index - 1) default).duration_s (0 : ℚ)
      linarith
  | afterCue =>
    cases cue.dependency_name with
    | none => exact le_refl 0
    | some dep =>
      by_cases hne : dep = ""
      · simp [hne]
      · simp only [hne, ne_eq, not_false_iff, if_true]
        cases findDepBelow cues dep index with
        | none => exact le_refl 0
        | some j =>
          have := getD_nonneg starts j h
          have := le_max_right (cues.getD j default).duration_s (0 : ℚ)
          simp only []
          linarith

theorem schedGoNC_nonneg (cues : List MediaCue) :
    ∀ remaining index starts, (∀ x ∈ starts, 0 ≤ x) →
      ∀ x ∈ schedGoNC cues remaining index starts, 0 ≤ x := by
  intro remaining
  induction remaining with
  | nil => intro index starts h; exact h
  | cons cue rem ih =>
    intro index starts h
    rw [schedGoNC]
    apply ih
    intro x hx
    rcases List.mem_append.mp hx with hx | hx
    · exact h x hx
    · rcases List.mem_singleton.mp hx with rfl
      exact startOf_nonneg cues starts index cue h

theorem compute_schedule_nonneg (cues : List MediaCue) :
    ∀ x ∈ compute_schedule cues, 0 ≤ x := by
  rw [compute_schedule_eq_NC]
  exact schedGoNC_nonneg cues cues 0 [] (by intro x hx; simp at hx)

/-!
### Claim theorems: schedule resolver
-/

/-- C10: `compute_schedule` returns exactly the same output as the same
recursion with the running `current_time` cursor removed — the cursor is
updated in every branch but never read when computing a start — and each
`start_times[i]` is a function of `cues[0..i]` alone: extending the cue list
never changes the already-computed prefix of the output. -/
theorem compute_schedule_cursor_free :
    (∀ cues, compute_schedule cues = computeScheduleNC cues) ∧
    (∀ cues tail, (compute_schedule (cues ++ tail)).take cues.length =
      compute_schedule cues) := by
  constructor
  · exact compute_schedule_eq_NC
  · intro cues tail
    rw [compute_schedule_eq_NC, compute_schedule_eq_NC]
    unfold computeScheduleNC
    exact schedGoNC_append cues tail cues 0 [] rfl rfl (by omega)

/-- C6: a cue with `start_mode = AT_TIME` resolves to
`max(start_time_s, 0)`, a value depending on that cue alone. -/
theorem compute_schedule_atTime (cues : List MediaCue) (i : Nat)
    (hi : i < cues.length)
    (hmode : (cues.getD i default).start_mode = StartMode.atTime) :
    (compute_schedule cues).getD i 0 =
      max (cues.getD i default).start_time_s 0 := by
  rw [compute_schedule_char cues i hi]
  unfold startOf
  rw [hmode]

/-- Witness for `compute_schedule_atTime`: the fixed-time cue at index 4 of
`wCuesA` (with negative `start_time_s`). -/
theorem compute_schedule_atTime_witness :
    4 < wCuesA.length ∧
    (wCuesA.getD 4 default).start_mode = StartMode.atTime ∧
    (compute_schedule wCuesA).getD 4 0 =
      max (wCuesA.getD 4 default).start_time_s 0 :=
  ⟨by decide, rfl, compute_schedule_atTime wCuesA 4 (by decide) rfl⟩

/-- C5: a cue with `start_mode = AFTER_PREVIOUS` resolves to `0` at index 0
(whatever its other fields), and otherwise to
`start[i-1] + max(duration[i-1], 0)` — chained off the previous cue's
resolved start and clamped duration, not off the cursor. -/
theorem compute_schedule_afterPrevious (cues : List MediaCue) (i : Nat)
    (hi : i < cues.length)
    (hmode : (cues.getD i default).start_mode = StartMode.afterPrevious) :
    (compute_schedule cues).getD i 0 =
      if i = 0 then 0
      else (compute_schedule cues).getD (i - 1) 0 +
        max (cues.getD (i - 1) default).duration_s 0 := by
  rw [compute_schedule_char cues i hi]
  unfold startOf
  rw [hmode]

/-- Witness for `compute_schedule_afterPrevious`: the after-previous cue at
index 3 of `wCuesA`. -/
theorem compute_schedule_afterPrevious_witness :
    3 < wCuesA.length ∧
    (wCuesA.getD 3 default).start_mode = StartMode.afterPrevious ∧
    (compute_schedule wCuesA).getD 3 0 =
      (if (3 : Nat) = 0 then 0
       else (compute_schedule wCuesA).getD 2 0 +
         max (wCuesA.getD 2 default).duration_s 0) :=
  ⟨by decide, rfl, compute_schedule_afterPrevious wCuesA 3 (by decide) rfl⟩

/-- C1: a cue with `start_mode = AFTER_CUE` resolves to `0` when its
`dependency_name` is absent or empty or matches no earlier cue, and
otherwise to `start[j] + max(duration[j], 0)` where `j` is the nearest
preceding cue named `dependency_name` (the largest matching index `< i`,
even under duplicate names). -/
theorem compute_schedule_afterCue (cues : List MediaCue) (i : Nat)
    (hi : i < cues.length)
    (hmode : (cues.getD i default).start_mode = StartMode.afterCue) :
    ((cues.getD i default).dependency_name = none ∨
        (cues.getD i default).dependency_name = some "" →
      (compute_schedule cues).getD i 0 = 0) ∧
    (∀ dep, (cues.getD i default).dependency_name = some dep → dep ≠ "" →
      ((∀ j, j < i → (cues.getD j default).name ≠ dep) →
        (compute_schedule cues).getD i 0 = 0) ∧
      (∀ j, j < i → (cues.getD j default).name = dep →
        (∀ k, k < i → j < k → (cues.getD k default).name ≠ dep) →
        (compute_schedule cues).getD i 0 =
          (compute_schedule cues).getD j 0 +
            max (cues.getD j default).duration_s 0)) := by
  have hc := compute_schedule_char cues i hi
  constructor
  · intro hdep
    rw [hc]
    unfold startOf
    rw [hmode]
    rcases hdep with h | h <;> rw [h] <;> simp
  · intro dep hdep hne
    constructor
    · intro hnone
      rw [hc]
      unfold startOf
      rw [hmode, hdep]
      dsimp only
      rw [(findDepBelow_none_iff cues dep i).mpr hnone]
      simp [hne]
    · intro j hj hname hmax
      rw [hc]
      unfold startOf
      rw [hmode, hdep]
      dsimp only
      rw [findDepBelow_greatest cues dep i j hj hname hmax]
      simp [hne]

/-- Witness for `compute_schedule_afterCue`: the after-cue at index 2 of
`wCuesA` depends on name `"a"`, which occurs at indices 0 and 1; the nearest
preceding match is index 1. -/
theorem compute_schedule_afterCue_witness :
    2 < wCuesA.length ∧
    (wCuesA.getD 2 default).start_mode = StartMode.afterCue ∧
    (wCuesA.getD 2 default).dependency_name = some "a" ∧
    (wCuesA.getD 1 default).name = "a" ∧
    (compute_schedule wCuesA).getD 2 0 =
      (compute_schedule wCuesA).getD 1 0 +
        max (wCuesA.getD 1 default).duration_s 0 :=
  ⟨by decide, rfl, rfl, rfl,
    ((compute_schedule_afterCue wCuesA 2 (by decide) rfl).2 "a" rfl
      (by decide)).2 1 (by decide) rfl (by decide)⟩

/-!
### Global-timeline machinery
-/

theorem le_foldl_max_init (l : List ℚ) : ∀ b : ℚ, b ≤ l.foldl max b := by
  induction l with
  | nil => intro b; exact le_refl b
  | cons c t ih =>
    intro b
    exact le_trans (le_max_left b c) (ih (max b c))

theorem le_foldl_max_mem (l : List ℚ) : ∀ b a, a ∈ l → a ≤ l.foldl max b := by
  induction l with
  | nil => intro b a ha; simp at ha
  | cons c t ih =>
    intro b a ha
    rcases List.mem_cons.mp ha with rfl | ha
    · exact le_trans (le_max_right b a) (le_foldl_max_init t (max b a))
    · exact ih (max b c) a ha

theorem roomEnd_nonneg (cues : List MediaCue) : 0 ≤ roomEnd cues :=
  le_foldl_max_init _ 0

theorem roomEnd_bound (cues : List MediaCue) (c : MediaCue) (s : ℚ)
    (h : (c, s) ∈ cues.zip (compute_schedule cues)) :
    s + max c.duration_s 0 ≤ roomEnd cues := by
  apply le_foldl_max_mem
  exact List.mem_map.mpr ⟨(c, s), h, rfl⟩

theorem prefixEnd_zero (rooms : List (String × List MediaCue)) :
    prefixEnd rooms 0 = 0 := by
  simp [prefixEnd]

theorem prefixEnd_succ (rooms : List (String × List MediaCue)) (N : Nat)
    (hN : N < rooms.length) :
    prefixEnd rooms (N + 1) =
      prefixEnd rooms N + roomEnd (rooms.getD N ("", [])).2 := by
  unfold prefixEnd
  rw [List.take_succ, List.map_append, List.sum_append]
  congr 1
  rw [List.getElem?_eq_getElem hN]
  simp [List.getD, List.getElem?_eq_getElem hN]

theorem prefixEnd_cons (name : String) (cues : List MediaCue)
    (rest : List (String × List MediaCue)) (N : Nat) :
    prefixEnd ((name, cues) :: rest) (N + 1) =
      roomEnd cues + prefixEnd rest N := by
  unfold prefixEnd
  simp

theorem prefixEnd_mono (rooms : List (String × List MediaCue)) (K M : Nat)
    (h : K ≤ M) : prefixEnd rooms K ≤ prefixEnd rooms M := by
  unfold prefixEnd
  have hM : M = K + (M - K) := by omega
  rw [hM, List.take_add, List.map_append, List.sum_append]
  have hnn : 0 ≤ (List.map (fun r => roomEnd r.2)
      (((rooms.drop K)).take (M - K))).sum := by
    apply List.sum_nonneg
    intro x hx
    obtain ⟨r, _, rfl⟩ := List.mem_map.mp hx
    exact roomEnd_nonneg r.2
  linarith


/-!
### Global-timeline theorems
-/

theorem buildGo_cons (name : String) (cues : List MediaCue)
    (rest : List (String × List MediaCue)) (offset : ℚ) :
    buildGo ((name, cues) :: rest) offset =
      (roomItems name cues offset ++ (buildGo rest (offset + roomEnd cues)).1,
       (buildGo rest (offset + roomEnd cues)).2) := by
  rw [buildGo]
  by_cases hemp : cues.isEmpty
  · have hcnil : cues = [] := List.isEmpty_iff.mp hemp
    subst hcnil
    have h1 : roomItems name [] offset = [] := rfl
    have h2 : roomEnd ([] : List MediaCue) = 0 := rfl
    simp [h1, h2]
  · simp [hemp]

theorem buildGo_decomp :
    ∀ (rooms : List (String × List MediaCue)) (offset : ℚ),
      (buildGo rooms offset).1 =
        (List.range rooms.length).flatMap
          (fun N => roomItems (rooms.getD N ("", [])).1
            (rooms.getD N ("", [])).2 (offset + prefixEnd rooms N)) ∧
      (buildGo rooms offset).2 = offset + prefixEnd rooms rooms.length := by
  intro rooms
  induction rooms with
  | nil => intro offset; simp [buildGo, prefixEnd]
  | cons room rest ih =>
    intro offset
    obtain ⟨name, cues⟩ := room
    rw [buildGo_cons]
    constructor
    · dsimp only
      rw [(ih (offset + roomEnd cues)).1]
      rw [List.length_cons, List.range_succ_eq_map]
      rw [List.flatMap_cons]
      have hhead : ((name, cues) :: rest).getD 0 ("", []) = (name, cues) := rfl
      rw [hhead, prefixEnd_zero, add_zero]
      congr 1
      rw [List.flatMap_map]
      apply List.flatMap_congr
      intro N hN
      have hgd : ((name, cues) :: rest).getD (N + 1) ("", []) =
          rest.getD N ("", []) := rfl
      rw [hgd, prefixEnd_cons, ← add_assoc]
    · dsimp only
      rw [(ih (offset + roomEnd cues)).2, List.length_cons, prefixEnd_cons,
        ← add_assoc]

theorem roomItemsAt_bounds (rooms : List (String × List MediaCue)) (N : Nat)
    (it : GlobalTimelineItem) (hit : it ∈ roomItemsAt rooms N) :
    prefixEnd rooms N ≤ it.start_time ∧
    it.start_time + it.duration ≤
      prefixEnd rooms N + roomEnd (rooms.getD N ("", [])).2 := by
  unfold roomItemsAt roomItems at hit
  obtain ⟨⟨c, s⟩, hmem, rfl⟩ := List.mem_map.mp hit
  have hs : 0 ≤ s := compute_schedule_nonneg _ s (List.of_mem_zip hmem).2
  have hb := roomEnd_bound _ c s hmem
  constructor
  · dsimp only
    linarith
  · dsimp only
    linarith

/-- C4 (amended): the global timeline is exactly the concatenation of the
per-room blocks; each entry of room `N` starts at or after the cumulative
end of the earlier rooms and ends (start + duration) at or before that sum
plus room `N`'s `room_end`; hence entries of distinct rooms never overlap.
The strict upper bound of the claim as stated fails
(`globalEntriesStrictBounds_counterexample`). -/
theorem buildGlobalTimeline_room_blocks :
    (∀ rooms, (buildGlobalTimeline rooms).1 =
      (List.range rooms.length).flatMap (roomItemsAt rooms)) ∧
    (∀ rooms N, N < rooms.length → ∀ it, it ∈ roomItemsAt rooms N →
      prefixEnd rooms N ≤ it.start_time ∧
      it.start_time + it.duration ≤
        prefixEnd rooms N + roomEnd (rooms.getD N ("", [])).2) ∧
    (∀ rooms N M, N < M → M < rooms.length →
      ∀ it1, it1 ∈ roomItemsAt rooms N → ∀ it2, it2 ∈ roomItemsAt rooms M →
        ¬ ivOverlap (it1.start_time, it1.start_time + it1.duration)
          (it2.start_time, it2.start_time + it2.duration)) := by
  refine ⟨?_, ?_, ?_⟩
  · intro rooms
    unfold buildGlobalTimeline
    rw [(buildGo_decomp rooms 0).1]
    apply List.flatMap_congr
    intro N hN
    unfold roomItemsAt
    rw [zero_add]
  · intro rooms N _ it hit
    exact roomItemsAt_bounds rooms N it hit
  · intro rooms N M hNM hM it1 h1 it2 h2
    have hb1 := roomItemsAt_bounds rooms N it1 h1
    have hb2 := roomItemsAt_bounds rooms M it2 h2
    have hstep : prefixEnd rooms (N + 1) =
        prefixEnd rooms N + roomEnd (rooms.getD N ("", [])).2 :=
      prefixEnd_succ rooms N (by omega)
    have hmono : prefixEnd rooms (N + 1) ≤ prefixEnd rooms M :=
      prefixEnd_mono rooms (N + 1) M (by omega)
    rintro ⟨hov1, hov2⟩
    dsimp only at hov1 hov2
    linarith

/-- Witness for `buildGlobalTimeline_room_blocks`: in the two-room show
`wRooms`, room 2's entry starts at 20 = room 1's end, inside room 2's
block. -/
theorem buildGlobalTimeline_room_blocks_witness :
    1 < wRooms.length ∧ wItemRoom2 ∈ roomItemsAt wRooms 1 ∧
    prefixEnd wRooms 1 ≤ wItemRoom2.start_time ∧
    wItemRoom2.start_time + wItemRoom2.duration ≤
      prefixEnd wRooms 1 + roomEnd (wRooms.getD 1 ("", [])).2 := by
  have hmem : wItemRoom2 ∈ roomItemsAt wRooms 1 := by
    norm_num [roomItemsAt, roomItems, prefixEnd, roomEnd, wRooms, wItemRoom2,
      compute_schedule, schedGo, startOf, cursorOf]
  have hb := buildGlobalTimeline_room_blocks.2.1 wRooms 1
    (by norm_num [wRooms]) _ hmem
  exact ⟨by norm_num [wRooms], hmem, hb.1, hb.2⟩

/-- Counterexample to C4 as stated: in `cxRooms` the single cue starts at
10 with duration 0, so `room_end = 10 ≠ 0` but the entry's
`absolute_start = 10` is not strictly below `0 + 10`. -/
theorem globalEntriesStrictBounds_counterexample :
    ¬ globalEntriesStrictBounds := by
  intro h
  have hitems : roomItemsAt cxRooms 0 = [cxItemRoom] := by
    norm_num [roomItemsAt, roomItems, prefixEnd, cxRooms, cxItemRoom,
      compute_schedule, schedGo, startOf, cursorOf]
  have hre : roomEnd (cxRooms.getD 0 ("", [])).2 = 10 := by
    norm_num [roomEnd, cxRooms, compute_schedule, schedGo, startOf, cursorOf]
  obtain ⟨hlo, hup⟩ := h cxRooms 0 (by norm_num [cxRooms]) cxItemRoom
    (by rw [hitems]; exact List.mem_singleton_self _)
  have hstrict := hup (by rw [hre]; norm_num)
  rw [hre, prefixEnd_zero] at hstrict
  have : cxItemRoom.start_time = 10 := rfl
  linarith

/-!
### Serialization theorems
-/

theorem cueType_parse_value (ct : CueType) :
    CueType.parse (JValue.jstr ct.value) = Except.ok ct := by
  cases ct <;> rfl

theorem triggerType_parse_value (tt : TriggerType) :
    TriggerType.parse (JValue.jstr tt.value) = Except.ok tt := by
  cases tt <;> rfl

theorem playType_parse_value (pt : PlayType) :
    PlayType.parse (JValue.jstr pt.value) = Except.ok pt := by
  cases pt <;> rfl

theorem startMode_parse_value (sm : StartMode) :
    StartMode.parse (JValue.jstr sm.value) = Except.ok sm := by
  cases sm <;> rfl

theorem cueType_value_truthy (ct : CueType) :
    pyTruthy (JValue.jstr ct.value) = true := by
  cases ct <;> rfl

theorem cue_roundtrip_aux (c : MediaCue) (hdep : c.dependency_name ≠ some "") :
    MediaCue.from_dict (MediaCue.to_dict c) = Except.ok c := by
  have h1 : getStrField (MediaCue.to_dict c) "name" "" = Except.ok c.name := rfl
  have h2 : resolveTypeValue (MediaCue.to_dict c) = JValue.jstr c.cue_type.value := by
    unfold resolveTypeValue pyOr
    have hg : dictGet (MediaCue.to_dict c) "cue_type" =
        some (JValue.jstr c.cue_type.value) := rfl
    rw [hg]
    dsimp only
    rw [cueType_value_truthy]
    simp
  have h3 : dictGetD (MediaCue.to_dict c) "trigger_type"
      (JValue.jstr TriggerType.timeline.value) =
      JValue.jstr c.trigger_type.value := rfl
  have h4 : dictGetD (MediaCue.to_dict c) "play_type"
      (JValue.jstr PlayType.playOnce.value) =
      JValue.jstr c.play_type.value := rfl
  have h5 : dictGetD (MediaCue.to_dict c) "start_mode"
      (JValue.jstr StartMode.atTime.value) =
      JValue.jstr c.start_mode.value := rfl
  have h6 : getFloatField (MediaCue.to_dict c) "start_time_s" =
      Except.ok c.start_time_s := rfl
  have h7 : getFloatField (MediaCue.to_dict c) "duration_s" =
      Except.ok c.duration_s := rfl
  have h8 : getDepField (MediaCue.to_dict c) = Except.ok c.dependency_name := by
    unfold getDepField
    have hg : dictGet (MediaCue.to_dict c) "dependency_name" =
        some (match c.dependency_name with
              | some s => JValue.jstr s
              | none => JValue.jnull) := rfl
    rw [hg]
    cases hd : c.dependency_name with
    | none => rfl
    | some s =>
      have hs : s ≠ "" := by
        intro he
        exact hdep (by rw [hd, he])
      simp [pyTruthy, hs]
  have h9 : getStrField (MediaCue.to_dict c) "notes" "" = Except.ok c.notes := rfl
  unfold MediaCue.from_dict
  rw [h1, h2, cueType_parse_value, h3, triggerType_parse_value, h4,
    playType_parse_value, h5, startMode_parse_value, h6, h7, h8, h9]
  rfl

theorem mapM_cue_roundtrip :
    ∀ cues : List MediaCue, (∀ c ∈ cues, c.dependency_name ≠ some "") →
      (cues.map (fun c => JValue.jobj c.to_dict)).mapM cueOfJValue =
        Except.ok cues := by
  intro cues
  induction cues with
  | nil => intro _; rfl
  | cons c t ih =>
    intro h
    have hc : cueOfJValue (JValue.jobj c.to_dict) = Except.ok c :=
      cue_roundtrip_aux c (h c (List.mem_cons_self c t))
    rw [List.map_cons, List.mapM_cons, hc,
      ih (fun x hx => h x (List.mem_cons_of_mem c hx))]
    rfl

/-- C7 (amended): serializing and deserializing a `MediaCue` — or a whole
`RoomPlan` — is the identity, for cues whose `dependency_name` is not the
empty string (`from_dict` collapses a falsy `""` to `None`;
`mediaCue_roundtrip_counterexample`). -/
theorem mediaCue_roundtrip :
    (∀ c : MediaCue, c.dependency_name ≠ some "" →
      MediaCue.from_dict (MediaCue.to_dict c) = Except.ok c) ∧
    (∀ r : RoomPlan, (∀ c ∈ r.cues, c.dependency_name ≠ some "") →
      RoomPlan.from_dict (RoomPlan.to_dict r) = Except.ok r) := by
  constructor
  · exact cue_roundtrip_aux
  · intro r h
    unfold RoomPlan.from_dict
    have hcues : dictGetD (RoomPlan.to_dict r) "cues" (JValue.jarr []) =
        JValue.jarr (r.cues.map (fun c => JValue.jobj c.to_dict)) := rfl
    have hname : getStrField (RoomPlan.to_dict r) "name" "Room" =
        Except.ok r.name := rfl
    simp only [hcues, mapM_cue_roundtrip r.cues h, hname]
    rfl

/-- Witness for `mediaCue_roundtrip`: the fully populated cue `wCueFull`
(with fractional times) and the room `wRoomPlan` round-trip exactly. -/
theorem mediaCue_roundtrip_witness :
    wCueFull.dependency_name ≠ some "" ∧
    MediaCue.from_dict (MediaCue.to_dict wCueFull) = Except.ok wCueFull ∧
    RoomPlan.from_dict (RoomPlan.to_dict wRoomPlan) = Except.ok wRoomPlan := by
  refine ⟨by simp [wCueFull], mediaCue_roundtrip.1 wCueFull (by simp [wCueFull]), 
    mediaCue_roundtrip.2 wRoomPlan ?_⟩
  intro c hc
  rcases List.mem_cons.mp hc with rfl | hc
  · simp [wCueFull]
  · rcases List.mem_singleton.mp hc with rfl
    simp

/-- Counterexample to C7 as stated: the cue `cxCueEmptyDep` (whose
`dependency_name` is the empty string) does not round-trip: `from_dict`
returns it with `dependency_name = None`. -/
theorem mediaCue_roundtrip_counterexample :
    MediaCue.from_dict (MediaCue.to_dict cxCueEmptyDep) =
      Except.ok { name := "a" } ∧
    ({ name := "a" } : MediaCue) ≠ cxCueEmptyDep := by
  constructor
  · rfl
  · intro h
    have := congrArg MediaCue.dependency_name h
    simp [cxCueEmptyDep] at this

theorem mapM_cue_error :
    ∀ (l : List JValue) (v : JValue), v ∈ l →
      (∃ e, cueOfJValue v = Except.error e) →
      ∃ e, l.mapM cueOfJValue = Except.error e := by
  intro l
  induction l with
  | nil => intro v hv; simp at hv
  | cons x t ih =>
    intro v hv ⟨e, he⟩
    rw [List.mapM_cons]
    rcases List.mem_cons.mp hv with rfl | hv
    · exact ⟨e, by rw [he]; rfl⟩
    · cases hx : cueOfJValue x with
      | error e2 => exact ⟨e2, rfl⟩
      | ok c =>
        obtain ⟨e3, he3⟩ := ih v hv ⟨e, he⟩
        exact ⟨e3, by rw [he3]; rfl⟩

theorem mapM_room_error :
    ∀ (l : List JValue) (v : JValue), v ∈ l →
      (∃ e, roomOfJValue v = Except.error e) →
      ∃ e, l.mapM roomOfJValue = Except.error e := by
  intro l
  induction l with
  | nil => intro v hv; simp at hv
  | cons x t ih =>
    intro v hv ⟨e, he⟩
    rw [List.mapM_cons]
    rcases List.mem_cons.mp hv with rfl | hv
    · exact ⟨e, by rw [he]; rfl⟩
    · cases hx : roomOfJValue x with
      | error e2 => exact ⟨e2, rfl⟩
      | ok c =>
        obtain ⟨e3, he3⟩ := ih v hv ⟨e, he⟩
        exact ⟨e3, by rw [he3]; rfl⟩

/-- C8 (amended): deserialization fails (Python `ValueError`, the spec's
`ValidationError`) when the resolved cue-type value — `cue_type` when
truthy, else `media_type` when truthy, else the `"Audio"` default — is not
a recognized display string, or when `trigger_type`, `play_type` or
`start_mode` is present with an unrecognized value, and the failure
propagates through `RoomPlan.from_dict` and `ShowPlan.from_dict`, aborting
the load rather than skipping or defaulting the cue.  (A falsy `cue_type`
value such as `""` falls back to the legacy key instead of failing:
`validationError_counterexample`.) -/
theorem from_dict_enum_failure :
    (∀ d, (∃ e, CueType.parse (resolveTypeValue d) = Except.error e) →
      ∃ e, MediaCue.from_dict d = Except.error e) ∧
    (∀ d v, dictGet d "trigger_type" = some v →
      (∃ e, TriggerType.parse v = Except.error e) →
      ∃ e, MediaCue.from_dict d = Except.error e) ∧
    (∀ d v, dictGet d "play_type" = some v →
      (∃ e, PlayType.parse v = Except.error e) →
      ∃ e, MediaCue.from_dict d = Except.error e) ∧
    (∀ d v, dictGet d "start_mode" = some v →
      (∃ e, StartMode.parse v = Except.error e) →
      ∃ e, MediaCue.from_dict d = Except.error e) ∧
    (∀ rd l v, dictGetD rd "cues" (JValue.jarr []) = JValue.jarr l →
      v ∈ l → (∃ e, cueOfJValue v = Except.error e) →
      ∃ e, RoomPlan.from_dict rd = Except.error e) ∧
    (∀ sd l v, dictGetD sd "rooms" (JValue.jarr []) = JValue.jarr l →
      v ∈ l → (∃ e, roomOfJValue v = Except.error e) →
      ∃ e, ShowPlan.from_dict sd = Except.error e) := by
  have hname : ∀ d, (∃ e, getStrField d "name" "" = Except.error e) →
      ∃ e, MediaCue.from_dict d = Except.error e := by
    intro d ⟨e, he⟩
    exact ⟨e, by unfold MediaCue.from_dict; rw [he]; rfl⟩
  refine ⟨?_, ?_, ?_, ?_, ?_, ?_⟩
  · intro d ⟨e, he⟩
    unfold MediaCue.from_dict
    cases hn : getStrField d "name" "" with
    | error e2 => exact ⟨e2, rfl⟩
    | ok name => exact ⟨e, by rw [he]; rfl⟩
  · intro d v hv ⟨e, he⟩
    unfold MediaCue.from_dict
    have hgd : dictGetD d "trigger_type" (JValue.jstr TriggerType.timeline.value) = v := by
      unfold dictGetD
      rw [hv]
      rfl
    cases hn : getStrField d "name" "" with
    | error e2 => exact ⟨e2, rfl⟩
    | ok name =>
      cases hct : CueType.parse (resolveTypeValue d) with
      | error e3 => exact ⟨e3, rfl⟩
      | ok ct => exact ⟨e, by rw [hgd, he]; rfl⟩
  · intro d v hv ⟨e, he⟩
    unfold MediaCue.from_dict
    have hgd : dictGetD d "play_type" (JValue.jstr PlayType.playOnce.value) = v := by
      unfold dictGetD
      rw [hv]
      rfl
    cases hn : getStrField d "name" "" with
    | error e2 => exact ⟨e2, rfl⟩
    | ok name =>
      cases hct : CueType.parse (resolveTypeValue d) with
      | error e3 => exact ⟨e3, rfl⟩
      | ok ct =>
        cases htt : TriggerType.parse
            (dictGetD d "trigger_type" (JValue.jstr TriggerType.timeline.value)) with
        | error e4 => exact ⟨e4, rfl⟩
        | ok tt => exact ⟨e, by rw [hgd, he]; rfl⟩
  · intro d v hv ⟨e, he⟩
    unfold MediaCue.from_dict
    have hgd : dictGetD d "start_mode" (JValue.jstr StartMode.atTime.value) = v := by
      unfold dictGetD
      rw [hv]
      rfl
    cases hn : getStrField d "name" "" with
    | error e2 => exact ⟨e2, rfl⟩
    | ok name =>
      cases hct : CueType.parse (resolveTypeValue d) with
      | error e3 => exact ⟨e3, rfl⟩
      | ok ct =>
        cases htt : TriggerType.parse
            (dictGetD d "trigger_type" (JValue.jstr TriggerType.timeline.value)) with
        | error e4 => exact ⟨e4, rfl⟩
        | ok tt =>
          cases hpt : PlayType.parse
              (dictGetD d "play_type" (JValue.jstr PlayType.playOnce.value)) with
          | error e5 => exact ⟨e5, rfl⟩
          | ok pt => exact ⟨e, by rw [hgd, he]; rfl⟩
  · intro rd l v hl hv herr
    obtain ⟨e, he⟩ := mapM_cue_error l v hv herr
    unfold RoomPlan.from_dict
    exact ⟨e, by rw [hl]; dsimp only; rw [he]; rfl⟩
  · intro sd l v hl hv herr
    obtain ⟨e, he⟩ := mapM_room_error l v hv herr
    unfold ShowPlan.from_dict
    exact ⟨e, by rw [hl]; dsimp only; rw [he]; rfl⟩

/-- Witness for `from_dict_enum_failure`: the dict `wDictBadStartMode`
carries the unrecognized start mode `"bogus"`, and the one-room document
`wShowDictBad` containing it fails to load as a whole. -/
theorem from_dict_enum_failure_witness :
    dictGet wDictBadStartMode "start_mode" = some (JValue.jstr "bogus") ∧
    (∃ e, StartMode.parse (JValue.jstr "bogus") = Except.error e) ∧
    (∃ e, MediaCue.from_dict wDictBadStartMode = Except.error e) ∧
    (∃ e, ShowPlan.from_dict wShowDictBad = Except.error e) := by
  refine ⟨rfl, ⟨"invalid StartMode", rfl⟩, ?_, ?_⟩
  · exact from_dict_enum_failure.2.2.2.1 wDictBadStartMode (JValue.jstr "bogus")
      rfl ⟨"invalid StartMode", rfl⟩
  · apply from_dict_enum_failure.2.2.2.2.2 wShowDictBad _
      (JValue.jobj [("name", JValue.jstr "Reception"),
        ("cues", JValue.jarr [JValue.jobj wDictBadStartMode])]) rfl
      (List.mem_singleton_self _)
    exact ⟨"invalid StartMode", rfl⟩

/-- Counterexample to C8 as stated: the dict `cxDictEmptyCueType` has
`cue_type` value `""`, which is not a recognized display string, yet
deserialization succeeds (with the Audio default) instead of failing. -/
theorem validationError_counterexample :
    CueType.parse (JValue.jstr "") = Except.error "invalid CueType" ∧
    MediaCue.from_dict cxDictEmptyCueType = Except.ok cxCueDefault :=
  ⟨rfl, rfl⟩

/-- C9 (amended): `from_dict` resolves the cue-type value by Python
truthiness, not key presence: it uses `cue_type` when present *and truthy*
(non-empty, non-null, non-zero), else `media_type` when present and truthy,
else the `"Audio"` default; every successfully deserialized cue's type
parses from that selection.  (Presence alone is refuted by
`typeKeyPresenceResolution_counterexample`.) -/
theorem from_dict_type_resolution :
    (∀ d, resolveTypeValue d = specTypeValueTruthy d) ∧
    (∀ d c, MediaCue.from_dict d = Except.ok c →
      CueType.parse (specTypeValueTruthy d) = Except.ok c.cue_type) := by
  have hsel : ∀ d, resolveTypeValue d = specTypeValueTruthy d := by
    intro d
    unfold resolveTypeValue specTypeValueTruthy pyOr
    cases dictGet d "cue_type" with
    | some v =>
      by_cases hv : pyTruthy v
      · simp [hv]
      · simp only [hv, Bool.false_eq_true, if_false]
        cases dictGet d "media_type" with
        | some w => by_cases hw : pyTruthy w <;> simp [hw] <;> rfl
        | none => rfl
    | none =>
      cases dictGet d "media_type" with
      | some w => by_cases hw : pyTruthy w <;> simp [hw] <;> rfl
      | none => rfl
  refine ⟨hsel, ?_⟩
  intro d c h
  rw [← hsel]
  unfold MediaCue.from_dict at h
  cases hn : getStrField d "name" "" with
  | error e => rw [hn] at h; exact Except.noConfusion h
  | ok name =>
    rw [hn] at h
    cases hct : CueType.parse (resolveTypeValue d) with
    | error e => rw [hct] at h; exact Except.noConfusion h
    | ok ct =>
      rw [hct] at h
      cases htt : TriggerType.parse
          (dictGetD d "trigger_type" (JValue.jstr TriggerType.timeline.value)) with
      | error e => rw [htt] at h; exact Except.noConfusion h
      | ok tt =>
        rw [htt] at h
        cases hpt : PlayType.parse
            (dictGetD d "play_type" (JValue.jstr PlayType.playOnce.value)) with
        | error e => rw [hpt] at h; exact Except.noConfusion h
        | ok pt =>
          rw [hpt] at h
          cases hsm : StartMode.parse
              (dictGetD d "start_mode" (JValue.jstr StartMode.atTime.value)) with
          | error e => rw [hsm] at h; exact Except.noConfusion h
          | ok sm =>
            rw [hsm] at h
            cases hf1 : getFloatField d "start_time_s" with
            | error e => rw [hf1] at h; exact Except.noConfusion h
            | ok sts =>
              rw [hf1] at h
              cases hf2 : getFloatField d "duration_s" with
              | error e => rw [hf2] at h; exact Except.noConfusion h
              | ok dur =>
                rw [hf2] at h
                cases hdp : getDepField d with
                | error e => rw [hdp] at h; exact Except.noConfusion h
                | ok dep =>
                  rw [hdp] at h
                  cases hns : getStrField d "notes" "" with
                  | error e => rw [hns] at h; exact Except.noConfusion h
                  | ok notes =>
                    rw [hns] at h
                    have h2 : (⟨name, ct, tt, pt, sm, sts, dur, dep,
                        notes⟩ : MediaCue) = c := Except.ok.inj h
                    rw [← h2]

/-- Witness for `from_dict_type_resolution`: a dict carrying only the
legacy `media_type` key deserializes to a TV cue, and the truthiness-based
selection parses to exactly that cue type. -/
theorem from_dict_type_resolution_witness :
    MediaCue.from_dict wDictMediaTypeOnly = Except.ok wCueTV ∧
    CueType.parse (specTypeValueTruthy wDictMediaTypeOnly) =
      Except.ok wCueTV.cue_type :=
  ⟨rfl, from_dict_type_resolution.2 wDictMediaTypeOnly wCueTV rfl⟩

/-- Counterexample to C9 as stated: in `cxDictFalsyCueType` the key
`cue_type` is present (with the falsy value `""`), yet `from_dict` reads
`media_type` and returns a TV cue, while the presence-based selection of
the claim would read `""` and fail. -/
theorem typeKeyPresenceResolution_counterexample :
    ¬ typeKeyPresenceResolution := by
  intro h
  have h1 : MediaCue.from_dict cxDictFalsyCueType = Except.ok cxCueTV := rfl
  have h2 := h cxDictFalsyCueType cxCueTV h1
  have h3 : CueType.parse (specTypeValuePresence cxDictFalsyCueType) =
      Except.error "invalid CueType" := rfl
  rw [h3] at h2
  exact Except.noConfusion h2

/-!
### Lane-allocator theorems
-/

theorem findFreeLane_some (start : ℚ) :
    ∀ lanes l, findFreeLane start lanes = some l →
      l < lanes.length ∧ lanes.getD l 0 ≤ start := by
  intro lanes
  induction lanes with
  | nil => intro l h; simp [findFreeLane] at h
  | cons endv rest ih =>
    intro l h
    rw [findFreeLane] at h
    split at h
    · injection h with h2
      subst h2
      constructor
      · simp
      · simpa using by assumption
    · cases hrec : findFreeLane start rest with
      | none => rw [hrec] at h; simp at h
      | some l2 =>
        rw [hrec] at h
        simp at h
        subst h
        obtain ⟨h1, h2⟩ := ih l2 hrec
        constructor
        · simp; omega
        · simpa using h2

theorem findFreeLane_none (start : ℚ) :
    ∀ lanes, findFreeLane start lanes = none →
      ∀ l, l < lanes.length → start < lanes.getD l 0 := by
  intro lanes
  induction lanes with
  | nil => intro h l hl; simp at hl
  | cons endv rest ih =>
    intro h l hl
    rw [findFreeLane] at h
    split at h
    · exact absurd h (by simp)
    · next hcond =>
      cases hrec : findFreeLane start rest with
      | some l2 => rw [hrec] at h; simp at h
      | none =>
        cases l with
        | zero =>
          simp only [List.getD_cons_zero]
          linarith [not_le.mp hcond]
        | succ m =>
          rw [List.getD_cons_succ]
          exact ih hrec m (by simp at hl; omega)

theorem getD_set_self (l : List Nat) (i : Nat) (v : Nat) (hi : i < l.length) :
    (l.set i v).getD i 0 = v := by
  simp [List.getD, List.getElem?_set_self hi]

theorem getD_set_ne (l : List Nat) (i j : Nat) (v : Nat) (hij : i ≠ j) :
    (l.set i v).getD j 0 = l.getD j 0 := by
  simp [List.getD, List.getElem?_set_ne hij]

theorem getD_set_self_q (l : List ℚ) (i : Nat) (v : ℚ) (hi : i < l.length) :
    (l.set i v).getD i 0 = v := by
  simp [List.getD, List.getElem?_set_self hi]

theorem getD_set_ne_q (l : List ℚ) (i j : Nat) (v : ℚ) (hij : i ≠ j) :
    (l.set i v).getD j 0 = l.getD j 0 := by
  simp [List.getD, List.getElem?_set_ne hij]

theorem sortedIndices_perm (ivs : List (ℚ × ℚ)) :
    (sortedIndices ivs).Perm (List.range ivs.length) :=
  List.perm_insertionSort _ _

theorem sortedIndices_sorted (ivs : List (ℚ × ℚ)) :
    List.Pairwise (fun i j => ivStart ivs i ≤ ivStart ivs j)
      (sortedIndices ivs) := by
  have h := List.sorted_insertionSort (idxLe ivs) (List.range ivs.length)
  apply List.Pairwise.imp _ h
  intro i j hij
  rcases hij with h1 | ⟨h1, _⟩
  · exact le_of_lt h1
  · exact le_of_eq h1

theorem sortedIndices_nodup (ivs : List (ℚ × ℚ)) :
    (sortedIndices ivs).Nodup :=
  (sortedIndices_perm ivs).symm.nodup (List.nodup_range _)

theorem sortedIndices_lt (ivs : List (ℚ × ℚ)) :
    ∀ i ∈ sortedIndices ivs, i < ivs.length := by
  intro i hi
  have := (sortedIndices_perm ivs).mem_iff.mp hi
  exact List.mem_range.mp this

theorem concAt_ge_of_busy (ivs : List (ℚ × ℚ)) (done : List Nat)
    (lanes : List ℚ) (assign : List Nat) (k : Nat)
    (hk_lt : k < ivs.length) (hk_notin : k ∉ done)
    (hdone_lt : ∀ i ∈ done, i < ivs.length)
    (hord_k : ∀ i ∈ done, ivStart ivs i ≤ ivStart ivs k)
    (hwit : ∀ l, l < lanes.length → ∃ i ∈ done,
      assign.getD i 0 = l ∧ ivEnd ivs i = lanes.getD l 0)
    (hbusy : ∀ l, l < lanes.length → ivStart ivs k < lanes.getD l 0)
    (hposk : ivStart ivs k < ivEnd ivs k) :
    lanes.length + 1 ≤ concAt ivs (ivStart ivs k) := by
  have hex : ∀ l : Fin lanes.length, ∃ i, i ∈ done ∧
      assign.getD i 0 = l.val ∧ ivEnd ivs i = lanes.getD l.val 0 := by
    intro l
    simpa using hwit l.val l.isLt
  choose F hF1 hF2 hF3 using hex
  have hinj : Function.Injective F := by
    intro a b hab
    have hv : a.val = b.val := by rw [← hF2 a, ← hF2 b, hab]
    exact Fin.ext hv
  have hFA : ∀ l, F l ∈ (Finset.range ivs.length).filter
      (fun j => ivStart ivs j ≤ ivStart ivs k ∧ ivStart ivs k < ivEnd ivs j) := by
    intro l
    apply Finset.mem_filter.mpr
    refine ⟨Finset.mem_range.mpr (hdone_lt _ (hF1 l)), hord_k _ (hF1 l), ?_⟩
    rw [hF3 l]
    exact hbusy l.val l.isLt
  have hkA : k ∈ (Finset.range ivs.length).filter
      (fun j => ivStart ivs j ≤ ivStart ivs k ∧ ivStart ivs k < ivEnd ivs j) := by
    apply Finset.mem_filter.mpr
    exact ⟨Finset.mem_range.mpr hk_lt, le_refl _, hposk⟩
  have hkS : k ∉ Finset.image F Finset.univ := by
    intro hk
    obtain ⟨l, _, hl⟩ := Finset.mem_image.mp hk
    exact hk_notin (hl ▸ hF1 l)
  have hsub : insert k (Finset.image F Finset.univ) ⊆
      (Finset.range ivs.length).filter
        (fun j => ivStart ivs j ≤ ivStart ivs k ∧ ivStart ivs k < ivEnd ivs j) := by
    intro x hx
    rcases Finset.mem_insert.mp hx with rfl | hx
    · exact hkA
    · obtain ⟨l, _, rfl⟩ := Finset.mem_image.mp hx
      exact hFA l
  have hcard := Finset.card_le_card hsub
  rw [Finset.card_insert_of_not_mem hkS,
    Finset.card_image_of_injective _ hinj, Finset.card_univ,
    Fintype.card_fin] at hcard
  unfold concAt
  omega

theorem placeAll_inv (ivs : List (ℚ × ℚ)) :
    ∀ (rest done : List Nat) (lanes : List ℚ) (assign : List Nat),
      (done ++ rest).Nodup →
      (∀ i ∈ done ++ rest, i < ivs.length) →
      (∀ i ∈ done, ∀ j ∈ rest, ivStart ivs i ≤ ivStart ivs j) →
      List.Pairwise (fun i j => ivStart ivs i ≤ ivStart ivs j) rest →
      LaneInv ivs done lanes assign →
      LaneInv ivs (done ++ rest) (placeAll ivs rest (lanes, assign)).1
        (placeAll ivs rest (lanes, assign)).2 := by
  intro rest
  induction rest with
  | nil =>
    intro done lanes assign _ _ _ _ hinv
    simpa [placeAll] using hinv
  | cons k rest ih =>
    intro done lanes assign hnd hlt hord hsorted hinv
    obtain ⟨hlen, hassigned, hchron, hlaneend, hslack, hconc⟩ := hinv
    have hk_lt : k < ivs.length := hlt k (by simp)
    have hk_notin : k ∉ done := by
      intro hk
      rw [List.nodup_append] at hnd
      exact hnd.2.2 hk (by simp)
    have hord_k : ∀ i ∈ done, ivStart ivs i ≤ ivStart ivs k :=
      fun i hi => hord i hi k (by simp)
    have hk_assign : k < assign.length := by rw [hlen]; exact hk_lt
    have happ : done ++ k :: rest = (done ++ [k]) ++ rest := by
      rw [List.append_assoc]
      rfl
    have hnd2 : ((done ++ [k]) ++ rest).Nodup := by rw [← happ]; exact hnd
    have hlt2 : ∀ i ∈ (done ++ [k]) ++ rest, i < ivs.length := by
      rw [← happ]; exact hlt
    have hord2 : ∀ i ∈ done ++ [k], ∀ j ∈ rest, ivStart ivs i ≤ ivStart ivs j := by
      intro i hi j hj
      rcases List.mem_append.mp hi with hi | hi
      · exact hord i hi j (by simp [hj])
      · rcases List.mem_singleton.mp hi with rfl
        exact (List.pairwise_cons.mp hsorted).1 j hj
    have hsorted2 : List.Pairwise (fun i j => ivStart ivs i ≤ ivStart ivs j) rest :=
      (List.pairwise_cons.mp hsorted).2
    rw [placeAll]
    cases hfind : findFreeLane (ivStart ivs k) lanes with
    | some l =>
      obtain ⟨hl_lt, hl_le⟩ := findFreeLane_some _ lanes l hfind
      rw [happ]
      apply ih (done ++ [k]) (lanes.set l (ivEnd ivs k)) (assign.set k l)
        hnd2 hlt2 hord2 hsorted2
      refine ⟨by simp [hlen], ?_, ?_, ?_, ?_, ?_⟩
      · -- every processed index has an existing lane
        intro i hi
        rcases List.mem_append.mp hi with hi | hi
        · have hik : i ≠ k := fun he => hk_notin (he ▸ hi)
          rw [getD_set_ne assign k i l (fun he => hik he.symm), List.length_set]
          exact hassigned i hi
        · rcases List.mem_singleton.mp hi with rfl
          rw [getD_set_self assign i l hk_assign, List.length_set]
          exact hl_lt
      · -- same-lane chronology
        rw [List.pairwise_append]
        refine ⟨?_, ?_, ?_⟩
        · apply List.Pairwise.imp_of_mem _ hchron
          intro a b ha hb hab
          have hak : a ≠ k := fun he => hk_notin (he ▸ ha)
          have hbk : b ≠ k := fun he => hk_notin (he ▸ hb)
          intro heq
          rw [getD_set_ne assign k a l (fun he => hak he.symm),
            getD_set_ne assign k b l (fun he => hbk he.symm)] at heq
          exact hab heq
        · exact List.pairwise_singleton _ _
        · intro i hi j hj
          have hjk : k = j := (List.mem_singleton.mp hj).symm
          subst hjk
          have hik : i ≠ k := fun he => hk_notin (he ▸ hi)
          intro heq
          rw [getD_set_ne assign k i l (fun he => hik he.symm),
            getD_set_self assign k l hk_assign] at heq
          rcases hslack i hi with hle | ⟨i2, hi2, hle⟩
          · rw [heq] at hle
            exact le_trans hle hl_le
          · exact le_trans hle (hord_k i2 hi2)
      · -- lane ends are ends of members
        intro l2 hl2
        rw [List.length_set] at hl2
        by_cases hll : l2 = l
        · subst hll
          refine ⟨k, by simp, ?_, ?_⟩
          · exact getD_set_self assign k l2 hk_assign
          · rw [getD_set_self_q lanes l2 _ hl2]
        · obtain ⟨i, hi, hia, hie⟩ := hlaneend l2 hl2
          have hik : i ≠ k := fun he => hk_notin (he ▸ hi)
          refine ⟨i, by simp [hi], ?_, ?_⟩
          · rw [getD_set_ne assign k i l (fun he => hik he.symm)]
            exact hia
          · rw [getD_set_ne_q lanes l l2 _ (fun he => hll he.symm)]
            exact hie
      · -- slack: end bounded by lane end or a later start
        intro i hi
        rcases List.mem_append.mp hi with hi | hi
        · have hik : i ≠ k := fun he => hk_notin (he ▸ hi)
          rw [getD_set_ne assign k i l (fun he => hik he.symm)]
          rcases hslack i hi with hle | ⟨i2, hi2, hle⟩
          · by_cases hal : assign.getD i 0 = l
            · right
              exact ⟨k, by simp, by rw [hal] at hle; exact le_trans hle hl_le⟩
            · left
              rw [getD_set_ne_q lanes l (assign.getD i 0) _ (fun he => hal he.symm)]
              exact hle
          · right
            exact ⟨i2, by simp [hi2], hle⟩
        · rcases List.mem_singleton.mp hi with rfl
          left
          rw [getD_set_self assign i l hk_assign,
            getD_set_self_q lanes l _ hl_lt]
      · -- concurrency lower bound
        intro hpos
        rw [List.length_set]
        exact hconc hpos
    | none =>
      have hbusy := findFreeLane_none _ lanes hfind
      rw [happ]
      apply ih (done ++ [k]) (lanes ++ [ivEnd ivs k]) (assign.set k lanes.length)
        hnd2 hlt2 hord2 hsorted2
      refine ⟨by simp [hlen], ?_, ?_, ?_, ?_, ?_⟩
      · intro i hi
        rw [List.length_append, List.length_singleton]
        rcases List.mem_append.mp hi with hi | hi
        · have hik : i ≠ k := fun he => hk_notin (he ▸ hi)
          rw [getD_set_ne assign k i _ (fun he => hik he.symm)]
          have := hassigned i hi
          omega
        · rcases List.mem_singleton.mp hi with rfl
          rw [getD_set_self assign i _ hk_assign]
          omega
      · rw [List.pairwise_append]
        refine ⟨?_, ?_, ?_⟩
        · apply List.Pairwise.imp_of_mem _ hchron
          intro a b ha hb hab
          have hak : a ≠ k := fun he => hk_notin (he ▸ ha)
          have hbk : b ≠ k := fun he => hk_notin (he ▸ hb)
          intro heq
          rw [getD_set_ne assign k a _ (fun he => hak he.symm),
            getD_set_ne assign k b _ (fun he => hbk he.symm)] at heq
          exact hab heq
        · exact List.pairwise_singleton _ _
        · intro i hi j hj
          have hjk : k = j := (List.mem_singleton.mp hj).symm
          subst hjk
          have hik : i ≠ k := fun he => hk_notin (he ▸ hi)
          intro heq
          rw [getD_set_ne assign k i _ (fun he => hik he.symm),
            getD_set_self assign k _ hk_assign] at heq
          exact absurd heq (Nat.ne_of_lt (hassigned i hi))
      · intro l2 hl2
        rw [List.length_append, List.length_singleton] at hl2
        by_cases hll : l2 = lanes.length
        · subst hll
          refine ⟨k, by simp, ?_, ?_⟩
          · exact getD_set_self assign k _ hk_assign
          · rw [List.getD_append_right _ _ _ _ (le_refl _)]
            simp
        · have hl2' : l2 < lanes.length := by omega
          obtain ⟨i, hi, hia, hie⟩ := hlaneend l2 hl2'
          have hik : i ≠ k := fun he => hk_notin (he ▸ hi)
          refine ⟨i, by simp [hi], ?_, ?_⟩
          · rw [getD_set_ne assign k i _ (fun he => hik he.symm)]
            exact hia
          · rw [List.getD_append _ _ _ _ hl2']
            exact hie
      · intro i hi
        rcases List.mem_append.mp hi with hi | hi
        · have hik : i ≠ k := fun he => hk_notin (he ▸ hi)
          rw [getD_set_ne assign k i _ (fun he => hik he.symm)]
          rcases hslack i hi with hle | ⟨i2, hi2, hle⟩
          · left
            rw [List.getD_append _ _ _ _ (hassigned i hi)]
            exact hle
          · right
            exact ⟨i2, by simp [hi2], hle⟩
        · rcases List.mem_singleton.mp hi with rfl
          left
          rw [getD_set_self assign i _ hk_assign,
            List.getD_append_right _ _ _ _ (le_refl _)]
          simp
      · intro hpos
        right
        refine ⟨ivStart ivs k, ?_⟩
        have := concAt_ge_of_busy ivs done lanes assign k hk_lt hk_notin
          (fun i hi => hlt i (by simp [hi])) hord_k hlaneend hbusy
          (hpos k hk_lt)
        rw [List.length_append, List.length_singleton]
        omega

theorem compute_lanes_eq (ivs : List (ℚ × ℚ)) :
    compute_lanes ivs =
      (placeAll ivs (sortedIndices ivs)
        ([], List.replicate ivs.length 0)).2 := by
  unfold compute_lanes
  by_cases h : ivs.length = 0
  · rw [if_pos h]
    have h1 : sortedIndices ivs = [] := by
      unfold sortedIndices
      rw [h]
      rfl
    rw [h1, h]
    rfl
  · rw [if_neg h]

theorem compute_lanes_laneInv (ivs : List (ℚ × ℚ)) :
    LaneInv ivs (sortedIndices ivs)
      (placeAll ivs (sortedIndices ivs) ([], List.replicate ivs.length 0)).1
      (placeAll ivs (sortedIndices ivs) ([], List.replicate ivs.length 0)).2 := by
  have h := placeAll_inv ivs (sortedIndices ivs) [] []
    (List.replicate ivs.length 0)
    (by simpa using sortedIndices_nodup ivs)
    (by simpa using sortedIndices_lt ivs)
    (by simp)
    (sortedIndices_sorted ivs)
    ⟨by simp, by simp, List.Pairwise.nil, by simp, by simp, fun _ => Or.inl rfl⟩
  simpa using h

theorem foldr_max_le_nat (l : List Nat) (B : Nat)
    (h : ∀ x ∈ l, x ≤ B) : l.foldr max 0 ≤ B := by
  induction l with
  | nil => simp
  | cons x t ih =>
    rw [List.foldr_cons]
    exact max_le (h x (by simp)) (ih (fun y hy => h y (by simp [hy])))

theorem le_foldr_max_nat (l : List Nat) (x : Nat) (h : x ∈ l) :
    x ≤ l.foldr max 0 := by
  induction l with
  | nil => simp at h
  | cons y t ih =>
    rw [List.foldr_cons]
    rcases List.mem_cons.mp h with rfl | h
    · exact le_max_left _ _
    · exact le_trans (ih h) (le_max_right _ _)

theorem mem_sortedIndices (ivs : List (ℚ × ℚ)) (i : Nat) :
    i ∈ sortedIndices ivs ↔ i < ivs.length := by
  rw [(sortedIndices_perm ivs).mem_iff, List.mem_range]

theorem numLanes_eq_length (ivs : List (ℚ × ℚ)) :
    numLanes ivs =
      (placeAll ivs (sortedIndices ivs)
        ([], List.replicate ivs.length 0)).1.length := by
  obtain ⟨hlen, hassigned, hchron, hlaneend, hslack, hconc⟩ :=
    compute_lanes_laneInv ivs
  unfold numLanes
  rw [compute_lanes_eq]
  set st := placeAll ivs (sortedIndices ivs) ([], List.replicate ivs.length 0)
  apply le_antisymm
  · apply foldr_max_le_nat
    intro x hx
    obtain ⟨y, hy, rfl⟩ := List.mem_map.mp hx
    obtain ⟨idx, hidx⟩ := List.mem_iff_get.mp hy
    have hidx_lt : idx.val < ivs.length := by
      have := idx.isLt
      omega
    have : st.2.getD idx.val 0 = y := by
      rw [List.getD_eq_getElem st.2 0 idx.isLt]
      simp [← hidx]
    have hlt := hassigned idx.val ((mem_sortedIndices ivs idx.val).mpr hidx_lt)
    omega
  · rcases Nat.eq_zero_or_pos st.1.length with hL | hL
    · omega
    · obtain ⟨i, hip, hia, _⟩ := hlaneend (st.1.length - 1) (by omega)
      have hi_lt : i < ivs.length := (mem_sortedIndices ivs i).mp hip
      have hi_len : i < st.2.length := by omega
      have hmem : st.2.getD i 0 ∈ st.2 := by
        rw [List.getD_eq_getElem st.2 0 hi_len]
        exact List.getElem_mem _
      have : st.2.getD i 0 + 1 ∈ st.2.map (· + 1) :=
        List.mem_map.mpr ⟨_, hmem, rfl⟩
      have hle := le_foldr_max_nat _ _ this
      omega

theorem compute_lanes_no_overlap_general (ivs : List (ℚ × ℚ)) (i j : Nat)
    (hi : i < ivs.length) (hj : j < ivs.length) (hij : i ≠ j)
    (heq : (compute_lanes ivs).getD i 0 = (compute_lanes ivs).getD j 0) :
    ¬ ivOverlap (ivs.getD i (0, 0)) (ivs.getD j (0, 0)) := by
  obtain ⟨hlen, hassigned, hchron, hlaneend, hslack, hconc⟩ :=
    compute_lanes_laneInv ivs
  rw [compute_lanes_eq] at heq
  set st := placeAll ivs (sortedIndices ivs) ([], List.replicate ivs.length 0)
  have hchron2 : List.Pairwise (fun a b =>
      (st.2.getD a 0 = st.2.getD b 0 → ivEnd ivs a ≤ ivStart ivs b) ∨
      (st.2.getD b 0 = st.2.getD a 0 → ivEnd ivs b ≤ ivStart ivs a))
      (sortedIndices ivs) :=
    List.Pairwise.imp (fun h => Or.inl h) hchron
  have hsym : Symmetric (fun a b =>
      (st.2.getD a 0 = st.2.getD b 0 → ivEnd ivs a ≤ ivStart ivs b) ∨
      (st.2.getD b 0 = st.2.getD a 0 → ivEnd ivs b ≤ ivStart ivs a)) := by
    intro a b h
    rcases h with h | h
    · exact Or.inr h
    · exact Or.inl h
  have hij2 := List.Pairwise.forall hsym hchron2
    ((mem_sortedIndices ivs i).mpr hi) ((mem_sortedIndices ivs j).mpr hj) hij
  rintro ⟨hov1, hov2⟩
  rcases hij2 with h | h
  · have := h heq
    have hsj : (ivs.getD j (0, 0)).1 < (ivs.getD i (0, 0)).2 := hov2
    unfold ivEnd ivStart at this
    linarith
  · have := h heq.symm
    have hsi : (ivs.getD i (0, 0)).1 < (ivs.getD j (0, 0)).2 := hov1
    unfold ivEnd ivStart at this
    linarith

/-- C2: the greedy lane allocator never puts two overlapping intervals in
the same lane: for `(start, duration)` items turned into half-open
intervals `(start, start + max(duration, 0))`, two distinct items assigned
the same lane never satisfy `start_a < end_b ∧ start_b < end_a`. -/
theorem compute_lanes_no_overlap (items : List (ℚ × ℚ)) (i j : Nat)
    (hi : i < items.length) (hj : j < items.length) (hij : i ≠ j)
    (heq : (compute_lanes (ivsOfItems items)).getD i 0 =
           (compute_lanes (ivsOfItems items)).getD j 0) :
    ¬ ivOverlap ((ivsOfItems items).getD i (0, 0))
      ((ivsOfItems items).getD j (0, 0)) := by
  have hlen : (ivsOfItems items).length = items.length := by
    unfold ivsOfItems
    simp
  exact compute_lanes_no_overlap_general (ivsOfItems items) i j
    (by omega) (by omega) hij heq

/-- C3 (amended): for interval lists in which every interval has positive
length, the number of lanes the greedy allocator produces (max assigned
lane + 1) is exactly the maximum number of intervals simultaneously in
flight at some instant.  Zero-length intervals break the claim as stated
(`lanesAreMaxConcurrency_counterexample`). -/
theorem compute_lanes_maxConcurrency (ivs : List (ℚ × ℚ))
    (hpos : ∀ iv ∈ ivs, iv.1 < iv.2) :
    (∀ t, concAt ivs t ≤ numLanes ivs) ∧
    (numLanes ivs = 0 ∨ ∃ t, concAt ivs t = numLanes ivs) := by
  obtain ⟨hlen, hassigned, hchron, hlaneend, hslack, hconc⟩ :=
    compute_lanes_laneInv ivs
  set st := placeAll ivs (sortedIndices ivs) ([], List.replicate ivs.length 0)
    with hst
  have hpos2 : ∀ i, i < ivs.length → ivStart ivs i < ivEnd ivs i := by
    intro i hilt
    have hmem : ivs.getD i (0, 0) ∈ ivs := by
      rw [List.getD_eq_getElem ivs (0, 0) hilt]
      exact List.getElem_mem _
    exact hpos _ hmem
  have hLe : ∀ t, concAt ivs t ≤ numLanes ivs := by
    intro t
    rw [numLanes_eq_length, ← hst, ← Finset.card_range st.1.length]
    unfold concAt
    apply Finset.card_le_card_of_injOn (fun j => st.2.getD j 0)
    · intro a ha
      rw [Finset.mem_filter, Finset.mem_range] at ha
      rw [Finset.mem_range]
      exact hassigned a ((mem_sortedIndices ivs a).mpr ha.1)
    · intro a ha b hb hab
      simp only [Finset.coe_filter, Set.mem_setOf_eq, Finset.mem_range] at ha hb
      by_contra hne
      have hij2 := List.Pairwise.forall
        (by
          intro x y h
          rcases h with h | h
          · exact Or.inr h
          · exact Or.inl h)
        (List.Pairwise.imp (fun h => Or.inl h) hchron :
          List.Pairwise (fun x y =>
            (st.2.getD x 0 = st.2.getD y 0 → ivEnd ivs x ≤ ivStart ivs y) ∨
            (st.2.getD y 0 = st.2.getD x 0 → ivEnd ivs y ≤ ivStart ivs x))
            (sortedIndices ivs))
        ((mem_sortedIndices ivs a).mpr ha.1)
        ((mem_sortedIndices ivs b).mpr hb.1) hne
      rcases hij2 with h | h
      · have := h hab
        obtain ⟨_, hta1, hta2⟩ := ha
        obtain ⟨_, htb1, htb2⟩ := hb
        linarith
      · have := h hab.symm
        obtain ⟨_, hta1, hta2⟩ := ha
        obtain ⟨_, htb1, htb2⟩ := hb
        linarith
  refine ⟨hLe, ?_⟩
  rcases hconc hpos2 with hL0 | ⟨t, ht⟩
  · left
    rw [numLanes_eq_length, ← hst, hL0]
  · right
    refine ⟨t, le_antisymm (hLe t) ?_⟩
    rw [numLanes_eq_length, ← hst]
    exact ht

theorem compute_lanes_no_overlap_witness :
    0 < wItems.length ∧ 3 < wItems.length ∧ (0 : Nat) ≠ 3 ∧
    (compute_lanes (ivsOfItems wItems)).getD 0 0 =
      (compute_lanes (ivsOfItems wItems)).getD 3 0 ∧
    ¬ ivOverlap ((ivsOfItems wItems).getD 0 (0, 0))
      ((ivsOfItems wItems).getD 3 (0, 0)) := by
  have heval : compute_lanes (ivsOfItems wItems) = [0, 1, 0, 0] := by
    norm_num [compute_lanes, ivsOfItems, wItems, sortedIndices,
      List.insertionSort, List.orderedInsert, idxLe, ivStart, ivEnd,
      placeAll, findFreeLane, List.replicate]
  have heq : (compute_lanes (ivsOfItems wItems)).getD 0 0 =
      (compute_lanes (ivsOfItems wItems)).getD 3 0 := by
    rw [heval]
    rfl
  refine ⟨by norm_num [wItems], by norm_num [wItems], by omega, heq, ?_⟩
  exact compute_lanes_no_overlap wItems 0 3 (by norm_num [wItems])
    (by norm_num [wItems]) (by omega) heq

theorem compute_lanes_maxConcurrency_witness :
    (∀ iv ∈ wIvsPos, iv.1 < iv.2) ∧
    ((∀ t, concAt wIvsPos t ≤ numLanes wIvsPos) ∧
     (numLanes wIvsPos = 0 ∨ ∃ t, concAt wIvsPos t = numLanes wIvsPos)) := by
  have hpos : ∀ iv ∈ wIvsPos, iv.1 < iv.2 := by
    intro iv hiv
    simp only [wIvsPos, List.mem_cons, List.not_mem_nil, or_false] at hiv
    rcases hiv with rfl | rfl | rfl | rfl <;> norm_num
  exact ⟨hpos, compute_lanes_maxConcurrency wIvsPos hpos⟩

theorem lanesAreMaxConcurrency_counterexample : ¬ lanesAreMaxConcurrency := by
  intro h
  have hnl : numLanes cxIvs = 2 := by
    norm_num [numLanes, compute_lanes, cxIvs, sortedIndices,
      List.insertionSort, List.orderedInsert, idxLe, ivStart, ivEnd,
      placeAll, findFreeLane, List.replicate]
  have hcap : ∀ t, concAt cxIvs t ≤ 1 := by
    intro t
    unfold concAt
    have hsub : (Finset.range cxIvs.length).filter
        (fun j => ivStart cxIvs j ≤ t ∧ t < ivEnd cxIvs j) ⊆ {0} := by
      intro x hx
      rw [Finset.mem_filter, Finset.mem_range] at hx
      obtain ⟨hx1, hx2, hx3⟩ := hx
      have hlen : cxIvs.length = 2 := rfl
      have hx01 : x = 0 ∨ x = 1 := by omega
      rcases hx01 with rfl | rfl
      · exact Finset.mem_singleton_self 0
      · exfalso
        have hs : ivStart cxIvs 1 = 0 := rfl
        have he : ivEnd cxIvs 1 = 0 := rfl
        rw [hs] at hx2
        rw [he] at hx3
        linarith
    have := Finset.card_le_card hsub
    simpa using this
  obtain ⟨hle, hex⟩ := h cxIvs
  rcases hex with h0 | ⟨t, ht⟩
  · omega
  · have := hcap t
    omega
